import Mathlib

/-!
Verification of the skill-map graph engine.

The engine (module skill_map: Skill, SkillGraph, SkillMap, SkillMapMetrics)
is specified in spec.md and exercised by tests/functional/modules_skill_map.py.
The module source itself is not in the tree, so every definition below that
embeds it is modelled from the specification text, as its doc comment records.
-/

/-- Modelled from the spec: the directed-graph view used by SkillMapMetrics
(section 4.3).  Nodes are the skill ids present in the successors mapping and
the successor function gives, for each node, the ids of the skills that are
reached by one directed edge.  The same shape also serves as the prerequisite
graph of a SkillGraph (edges skill to prerequisite). -/
structure DirGraph where
  nodes : List Nat
  succs : Nat → List Nat

namespace DirGraph

/-- Modelled from the spec: the edge relation of the graph, a to b exactly
when b is listed among the successors of a. -/
def E (g : DirGraph) (a b : Nat) : Prop := b ∈ g.succs a

instance (g : DirGraph) (a b : Nat) : Decidable (E g a b) :=
  inferInstanceAs (Decidable (b ∈ g.succs a))

/-- Referential integrity of the graph (spec section 3): every id referenced
by an edge is itself a node. -/
def Closed (g : DirGraph) : Prop := ∀ a ∈ g.nodes, ∀ b ∈ g.succs a, b ∈ g.nodes

instance (g : DirGraph) : Decidable (Closed g) :=
  inferInstanceAs (Decidable (∀ a ∈ g.nodes, ∀ b ∈ g.succs a, b ∈ g.nodes))

/-- No node lists itself as a successor (spec section 3: length-1 cycles are
rejected at the edge-insertion boundary). -/
def NoSelfLoop (g : DirGraph) : Prop := ∀ a ∈ g.nodes, ¬ E g a a

instance (g : DirGraph) : Decidable (NoSelfLoop g) :=
  inferInstanceAs (Decidable (∀ a ∈ g.nodes, ¬ E g a a))

/-- Modelled from the spec: a simple cycle (spec section 3, Cycle report): a
closed directed walk through distinct vertices of the graph; the closing edge
is included by chaining the list with its own first element. -/
def IsSimpleCycle (g : DirGraph) (c : List Nat) : Prop :=
  c ≠ [] ∧ List.Chain' (E g) (c ++ c.take 1) ∧ c.Nodup ∧ ∀ x ∈ c, x ∈ g.nodes

instance (g : DirGraph) (c : List Nat) : Decidable (IsSimpleCycle g c) :=
  inferInstanceAs (Decidable (c ≠ [] ∧ List.Chain' (E g) (c ++ c.take 1) ∧
    c.Nodup ∧ ∀ x ∈ c, x ∈ g.nodes))

/-- A cycle list is in canonical form when its first vertex is its minimum;
the tests compare cycles by sorted vertex lists, and the enumeration below
produces each cycle rooted at its minimal vertex. -/
def Canonical : List Nat → Prop
  | [] => True
  | v :: rest => ∀ x ∈ v :: rest, v ≤ x

instance : (c : List Nat) → Decidable (Canonical c)
  | [] => .isTrue trivial
  | v :: rest => inferInstanceAs (Decidable (∀ x ∈ v :: rest, v ≤ x))

/-- Acyclicity: the graph has no simple cycle at all. -/
def Acyclic (g : DirGraph) : Prop := ∀ c, ¬ IsSimpleCycle g c

/-- Modelled from the spec: the per-root step of simple-cycle enumeration
(spec section 4.3, Johnson-style enumeration per root; an equivalent approach
is explicitly acceptable).  Starting from root s it extends a path (held in
reverse, current vertex first) along edges, visiting only unvisited vertices
larger than s, and emits the path whenever an edge closes back to s. -/
def cycleSearch (g : DirGraph) (s : Nat) : Nat → Nat → List Nat → List (List Nat)
  | 0, _, _ => []
  | fuel+1, v, path =>
      (g.succs v).flatMap fun w =>
        if w = s then [path.reverse]
        else if s < w ∧ ¬ w ∈ path then cycleSearch g s fuel w (w :: path)
        else []

/-- Modelled from the spec: SkillMapMetrics.simple_cycles (spec section 4.3):
the list of all simple cycles of the directed graph, each rooted at its
minimal vertex. -/
def simpleCycles (g : DirGraph) : List (List Nat) :=
  g.nodes.flatMap fun s => cycleSearch g s (g.nodes.length + 1) s [s]

/-- The invariant maintained by cycleSearch for the reversed path: it is a
nonempty duplicate-free reversed walk from the root s (last entry) to the
current vertex v (first entry), all entries at least s and all entries
nodes of the graph. -/
structure SearchPath (g : DirGraph) (s v : Nat) (path : List Nat) : Prop where
  ne : path ≠ []
  head : path.head? = some v
  last : path.getLast? = some s
  nodup : path.Nodup
  lb : ∀ x ∈ path, s ≤ x
  chain : List.Chain' (fun a b => E g b a) path
  mem : ∀ x ∈ path, x ∈ g.nodes

lemma getLast?_cons_ne_nil {α : Type} (w : α) {l : List α} (h : l ≠ []) :
    (w :: l).getLast? = l.getLast? := by
  cases l with
  | nil => exact absurd rfl h
  | cons a t => exact List.getLast?_cons_cons

lemma getLast?_append_right {α : Type} (l1 l2 : List α) (h : l2 ≠ []) :
    (l1 ++ l2).getLast? = l2.getLast? := by
  rw [List.getLast?_append, List.getLast?_eq_getLast l2 h]
  rfl

lemma canonical_of_head? {c : List Nat} {s : Nat} (h : c.head? = some s)
    (hall : ∀ x ∈ c, s ≤ x) : Canonical c := by
  cases c with
  | nil => trivial
  | cons v rest =>
      simp only [List.head?_cons, Option.some_inj] at h
      subst h
      exact hall

lemma head?_eq_of_canonical {c : List Nat} {s : Nat} (h : c.head? = some s)
    (hc : Canonical c) : ∀ x ∈ c, s ≤ x := by
  cases c with
  | nil => simp
  | cons v rest =>
      simp only [List.head?_cons, Option.some_inj] at h
      subst h
      exact hc

lemma cycleSearch_sound (g : DirGraph) (hC : Closed g) (s : Nat) :
    ∀ fuel v path c, SearchPath g s v path → c ∈ cycleSearch g s fuel v path →
      IsSimpleCycle g c ∧ Canonical c ∧ c.head? = some s := by
  intro fuel
  induction fuel with
  | zero =>
      intro v path c _ hc
      simp [cycleSearch] at hc
  | succ fuel ih =>
      intro v path c hp hc
      simp only [cycleSearch, List.mem_flatMap] at hc
      obtain ⟨w, hw, hcw⟩ := hc
      by_cases hws : w = s
      · rw [if_pos hws, List.mem_singleton] at hcw
        rw [hws] at hw
        subst hcw
        have hvmem : v ∈ path := by
          have := hp.head
          cases path with
          | nil => exact absurd rfl hp.ne
          | cons a t =>
              simp only [List.head?_cons, Option.some_inj] at this
              subst this; exact List.mem_cons_self _ _
        have hhead : path.reverse.head? = some s := by
          rw [List.head?_reverse]; exact hp.last
        refine ⟨⟨?_, ?_, ?_, ?_⟩, ?_, hhead⟩
        · simpa using hp.ne
        · -- chain around the cycle
          have htake : path.reverse.take 1 = [s] := by
            cases hrev : path.reverse with
            | nil => rw [hrev] at hhead; simp at hhead
            | cons a t =>
                rw [hrev] at hhead
                simp only [List.head?_cons, Option.some_inj] at hhead
                subst hhead; rfl
          rw [htake]
          have : path.reverse ++ [s] = (s :: path).reverse := by simp
          rw [this, List.chain'_reverse]
          have hflip : (flip fun a b => E g a b) = fun a b => E g b a := rfl
          rw [hflip]
          refine List.chain'_cons'.2 ⟨?_, hp.chain⟩
          intro y hy
          rw [hp.head] at hy
          simp only [Option.mem_def, Option.some_inj] at hy
          subst hy
          exact hw
        · simpa using hp.nodup
        · intro x hx
          exact hp.mem x (by simpa using hx)
        · refine canonical_of_head? hhead ?_
          intro x hx
          exact hp.lb x (by simpa using hx)
      · rw [if_neg hws] at hcw
        by_cases hcond : s < w ∧ ¬ w ∈ path
        · rw [if_pos hcond] at hcw
          have hvn : v ∈ g.nodes := by
            have hvmem : v ∈ path := by
              have := hp.head
              cases path with
              | nil => exact absurd rfl hp.ne
              | cons a t =>
                  simp only [List.head?_cons, Option.some_inj] at this
                  subst this; exact List.mem_cons_self _ _
            exact hp.mem v hvmem
          have hwn : w ∈ g.nodes := hC v hvn w hw
          refine ih w (w :: path) c ⟨?_, ?_, ?_, ?_, ?_, ?_, ?_⟩ hcw
          · simp
          · simp
          · rw [getLast?_cons_ne_nil w hp.ne]; exact hp.last
          · exact List.nodup_cons.2 ⟨hcond.2, hp.nodup⟩
          · intro x hx
            rcases List.mem_cons.1 hx with h | h
            · subst h; exact Nat.le_of_lt hcond.1
            · exact hp.lb x h
          · refine List.chain'_cons'.2 ⟨?_, hp.chain⟩
            intro y hy
            rw [hp.head] at hy
            simp only [Option.mem_def, Option.some_inj] at hy
            subst hy
            exact hw
          · intro x hx
            rcases List.mem_cons.1 hx with h | h
            · subst h; exact hwn
            · exact hp.mem x h
        · rw [if_neg hcond] at hcw
          simp at hcw

lemma simpleCycles_sound {g : DirGraph} (hC : Closed g) {c : List Nat}
    (hc : c ∈ simpleCycles g) : IsSimpleCycle g c ∧ Canonical c := by
  simp only [simpleCycles, List.mem_flatMap] at hc
  obtain ⟨s, hs, hcs⟩ := hc
  have hp : SearchPath g s s [s] :=
    ⟨by simp, by simp, by simp, by simp, by simp, by simp, by simpa using hs⟩
  have := cycleSearch_sound g hC s (g.nodes.length + 1) s [s] c hp hcs
  exact ⟨this.1, this.2.1⟩

lemma cycleSearch_complete (g : DirGraph) (s : Nat) (c : List Nat)
    (hcyc : IsSimpleCycle g c) (hcan : Canonical c) (hhead : c.head? = some s) :
    ∀ suf fuel path v, path ≠ [] → path.head? = some v →
      path.getLast? = some s → path.reverse ++ suf = c → suf.length < fuel →
      c ∈ cycleSearch g s fuel v path := by
  obtain ⟨hne, hchain, hnd, hmem⟩ := hcyc
  have hlb : ∀ x ∈ c, s ≤ x := head?_eq_of_canonical hhead hcan
  intro suf
  induction suf with
  | nil =>
      intro fuel path v hpne hphead hplast hsplit hlt
      match fuel, hlt with
      | fuel + 1, _ =>
        rw [List.append_nil] at hsplit
        have hvs : E g v s := by
          have htake : c.take 1 = [s] := by
            cases hcc : c with
            | nil => exact absurd hcc hne
            | cons a t =>
                rw [hcc] at hhead
                simp only [List.head?_cons, Option.some_inj] at hhead
                subst hhead; rfl
          rw [htake] at hchain
          have hlink := (List.chain'_append.1 hchain).2.2
          refine hlink v ?_ s (by simp)
          rw [← hsplit, List.getLast?_reverse, hphead]; rfl
        simp only [cycleSearch, List.mem_flatMap]
        exact ⟨s, hvs, by rw [if_pos rfl, hsplit]; exact List.mem_singleton.2 rfl⟩
  | cons w suf ih =>
      intro fuel path v hpne hphead hplast hsplit hlt
      match fuel, hlt with
      | fuel + 1, hlt =>
        have hchainc : List.Chain' (E g) c := List.Chain'.left_of_append hchain
        have hvw : E g v w := by
          rw [← hsplit] at hchainc
          have hlink := (List.chain'_append.1 hchainc).2.2
          refine hlink v ?_ w (by simp)
          rw [List.getLast?_reverse, hphead]; rfl
        have hsrev : s ∈ path.reverse := by
          refine List.mem_of_mem_head? ?_
          rw [List.head?_reverse, hplast]; rfl
        have hdisj : List.Disjoint path.reverse (w :: suf) := by
          have := hsplit ▸ hnd
          exact List.disjoint_of_nodup_append this
        have hws : w ≠ s := by
          intro h
          subst h
          exact hdisj hsrev (List.mem_cons_self _ _)
        have hwc : w ∈ c := by
          rw [← hsplit]
          exact List.mem_append_right _ (List.mem_cons_self _ _)
        have hsw : s < w := Nat.lt_of_le_of_ne (hlb w hwc) (fun h => hws h.symm)
        have hwp : ¬ w ∈ path := by
          intro h
          exact hdisj (List.mem_reverse.2 h) (List.mem_cons_self _ _)
        simp only [cycleSearch, List.mem_flatMap]
        refine ⟨w, hvw, ?_⟩
        rw [if_neg hws, if_pos ⟨hsw, hwp⟩]
        refine ih fuel (w :: path) w (by simp) (by simp) ?_ ?_ ?_
        · rw [getLast?_cons_ne_nil w hpne]; exact hplast
        · rw [← hsplit]; simp
        · simpa using Nat.lt_of_succ_lt_succ hlt

lemma simpleCycles_complete {g : DirGraph} {c : List Nat}
    (hcyc : IsSimpleCycle g c) (hcan : Canonical c) : c ∈ simpleCycles g := by
  have hne := hcyc.1
  have hhead : c.head? = some (c.head hne) := List.head?_eq_head hne
  have hsmem : c.head hne ∈ g.nodes := hcyc.2.2.2 _ (List.head_mem hne)
  have hlen : c.length ≤ g.nodes.length :=
    List.Subperm.length_le (List.Nodup.subperm hcyc.2.2.1 hcyc.2.2.2)
  refine List.mem_flatMap.2 ⟨c.head hne, hsmem, ?_⟩
  refine cycleSearch_complete g (c.head hne) c hcyc hcan hhead c.tail _ [c.head hne]
    (c.head hne) (by simp) (by simp) (by simp) ?_ ?_
  · simp only [List.reverse_singleton, List.singleton_append]
    exact List.head_cons_tail c hne
  · have : c.tail.length < c.length := by
      cases c with
      | nil => exact absurd rfl hne
      | cons a t => simp
    omega

/-- Under the structural invariants, the enumeration returns exactly the
simple cycles in canonical (minimal vertex first) form. -/
theorem mem_simpleCycles {g : DirGraph} (hC : Closed g) (c : List Nat) :
    c ∈ simpleCycles g ↔ IsSimpleCycle g c ∧ Canonical c :=
  ⟨fun h => simpleCycles_sound hC h, fun h => simpleCycles_complete h.1 h.2⟩

lemma simpleCycles_eq_nil_of_acyclic {g : DirGraph} (hC : Closed g)
    (hA : Acyclic g) : simpleCycles g = [] := by
  cases h : simpleCycles g with
  | nil => rfl
  | cons c t =>
      have hc : c ∈ simpleCycles g := h ▸ List.mem_cons_self c t
      exact absurd (simpleCycles_sound hC hc).1 (hA c)

/-- The vertices reachable from v by walks of exactly k edges. -/
def frontier (g : DirGraph) (v : Nat) : Nat → List Nat
  | 0 => [v]
  | k+1 => (frontier g v k).flatMap g.succs

lemma frontier_succ (g : DirGraph) (v k : Nat) :
    frontier g v (k + 1) = (frontier g v k).flatMap g.succs := rfl

lemma frontier_step {g : DirGraph} {a x w : Nat} (hx : x ∈ g.succs a) :
    ∀ m, w ∈ frontier g x m → w ∈ frontier g a (m + 1) := by
  intro m
  induction m generalizing w with
  | zero =>
      intro hw
      simp only [frontier, List.mem_singleton] at hw
      subst hw
      rw [frontier_succ, List.mem_flatMap]
      refine ⟨a, ?_, hx⟩
      simp [frontier]
  | succ m ih =>
      intro hw
      rw [frontier_succ] at hw
      rw [frontier_succ, List.mem_flatMap]
      rw [List.mem_flatMap] at hw
      obtain ⟨u, hu, hwu⟩ := hw
      exact ⟨u, ih hu, hwu⟩

lemma walk_to_frontier {g : DirGraph} :
    ∀ (l : List Nat) (a : Nat), List.Chain (E g) a l →
      ∀ x ∈ l.getLast?, x ∈ frontier g a l.length := by
  intro l
  induction l with
  | nil =>
      intro a _ x hx
      simp at hx
  | cons y l' ih =>
      intro a hchain x hx
      rw [List.chain_cons] at hchain
      cases l' with
      | nil =>
          simp only [List.getLast?_singleton, Option.mem_def, Option.some_inj] at hx
          subst hx
          simp only [List.length_singleton, frontier, List.mem_flatMap,
            List.mem_singleton]
          exact ⟨a, rfl, hchain.1⟩
      | cons z t =>
          have hx' : x ∈ (z :: t).getLast? := by
            rwa [List.getLast?_cons_cons] at hx
          have := ih y hchain.2 x hx'
          exact frontier_step hchain.1 (z :: t).length this

/-- An executable certificate of acyclicity: no node can reach itself by a
walk of between 1 and as many edges as there are nodes. -/
def acyclicB (g : DirGraph) : Bool :=
  g.nodes.all fun v =>
    (List.range g.nodes.length).all fun k => !(decide (v ∈ frontier g v (k + 1)))

lemma acyclic_of_acyclicB {g : DirGraph} (h : acyclicB g = true) : Acyclic g := by
  rintro c ⟨hne, hchain, hnd, hmem⟩
  match c, hne with
  | v :: rest, _ =>
    have hvn : v ∈ g.nodes := hmem v (List.mem_cons_self v rest)
    have hchain2 : List.Chain (E g) v (rest ++ [v]) := by
      have e : (v :: rest) ++ (v :: rest).take 1 = v :: (rest ++ [v]) := by simp
      rw [e] at hchain
      exact hchain
    have hlast : v ∈ (rest ++ [v]).getLast? := by
      rw [getLast?_append_right rest [v] (by simp)]
      rfl
    have hfr := walk_to_frontier (rest ++ [v]) v hchain2 v hlast
    have hlen : rest.length < g.nodes.length := by
      have := List.Subperm.length_le (List.Nodup.subperm hnd hmem)
      simp only [List.length_cons] at this
      omega
    have hall := List.all_eq_true.1 h v hvn
    have hk := List.all_eq_true.1 hall rest.length (List.mem_range.2 hlen)
    rw [Bool.not_eq_eq_eq_not, Bool.not_true, decide_eq_false_iff_not] at hk
    refine hk ?_
    have e2 : (rest ++ [v]).length = rest.length + 1 := by simp
    rw [e2] at hfr
    exact hfr

lemma exists_dup_split {l : List Nat} (h : ¬ l.Nodup) :
    ∃ (l1 : List Nat) (y : Nat) (l2 l3 : List Nat), l = l1 ++ y :: l2 ++ y :: l3 := by
  induction l with
  | nil => simp at h
  | cons a t ih =>
      by_cases hat : a ∈ t
      · obtain ⟨l2, l3, rfl⟩ := List.append_of_mem hat
        exact ⟨[], a, l2, l3, rfl⟩
      · have hnt : ¬ t.Nodup := fun hn => h (List.nodup_cons.2 ⟨hat, hn⟩)
        obtain ⟨l1, y, l2, l3, rfl⟩ := ih hnt
        exact ⟨a :: l1, y, l2, l3, rfl⟩

lemma chain'_shorten {R : Nat → Nat → Prop} :
    ∀ (n : Nat) (w : List Nat), w.length ≤ n → List.Chain' R w →
      ∃ p, List.Chain' R p ∧ p.Nodup ∧ p.head? = w.head? ∧
        p.getLast? = w.getLast? ∧ ∀ x ∈ p, x ∈ w := by
  intro n
  induction n with
  | zero =>
      intro w hw _
      have : w = [] := List.length_eq_zero.1 (Nat.le_zero.1 hw)
      subst this
      exact ⟨[], trivial, List.nodup_nil, rfl, rfl, by simp⟩
  | succ n ih =>
      intro w hw hc
      by_cases hnd : w.Nodup
      · exact ⟨w, hc, hnd, rfl, rfl, fun x hx => hx⟩
      · obtain ⟨l1, y, l2, l3, rfl⟩ := exists_dup_split hnd
        have h1 := List.chain'_append.1 hc
        have h2 := List.chain'_append.1 h1.1
        have hc' : List.Chain' R (l1 ++ y :: l3) := by
          refine List.chain'_append.2 ⟨h2.1, h1.2.1, ?_⟩
          intro x hx z hz
          simp only [List.head?_cons, Option.mem_def, Option.some_inj] at hz
          subst hz
          exact h2.2.2 x hx y (by simp)
        have hlen : (l1 ++ y :: l3).length ≤ n := by
          simp only [List.length_append, List.length_cons] at hw ⊢
          omega
        obtain ⟨p, pc, pnd, ph, pl, psub⟩ := ih _ hlen hc'
        refine ⟨p, pc, pnd, ?_, ?_, ?_⟩
        · rw [ph]
          cases l1 with
          | nil => simp
          | cons a t => simp
        · rw [pl, getLast?_append_right l1 (y :: l3) (by simp),
            getLast?_append_right _ (y :: l3) (by simp)]
        · intro x hx
          have := psub x hx
          simp only [List.mem_append, List.mem_cons] at this ⊢
          tauto

lemma cycle_of_loop {g : DirGraph} (x u : Nat) {p : List Nat}
    (hxu : E g x u) (hp : List.Chain' (E g) p) (hh : p.head? = some u)
    (hl : p.getLast? = some x) (hnd : p.Nodup) (hxn : x ∈ g.nodes)
    (hpn : ∀ z ∈ p, z ∈ g.nodes) : IsSimpleCycle g (x :: p.dropLast) := by
  have hpne : p ≠ [] := by
    intro h; rw [h] at hh; simp at hh
  have hxlast : p.getLast hpne = x := by
    have := List.getLast?_eq_getLast p hpne
    rw [this] at hl
    exact (Option.some_inj.1 hl)
  have hsplit : p.dropLast ++ [x] = p := by
    conv_rhs => rw [← List.dropLast_append_getLast hpne]
    rw [hxlast]
  refine ⟨by simp, ?_, ?_, ?_⟩
  · have e : (x :: p.dropLast) ++ (x :: p.dropLast).take 1 = x :: p := by
      simp only [List.take_succ_cons, List.take_zero, List.cons_append]
      rw [← hsplit]; simp
    rw [e]
    refine List.chain'_cons'.2 ⟨?_, hp⟩
    intro z hz
    rw [hh] at hz
    simp only [Option.mem_def, Option.some_inj] at hz
    subst hz
    exact hxu
  · refine List.nodup_cons.2 ⟨?_, List.Nodup.sublist (List.dropLast_sublist p) hnd⟩
    intro hxd
    have hnd2 : (p.dropLast ++ [x]).Nodup := by rw [hsplit]; exact hnd
    exact List.disjoint_of_nodup_append hnd2 hxd (by simp)
  · intro z hz
    rcases List.mem_cons.1 hz with h | h
    · subst h; exact hxn
    · exact hpn z ((List.dropLast_sublist p).subset h)

lemma cycle_of_walk_dup {g : DirGraph} {w : List Nat} (hc : List.Chain' (E g) w)
    (hmem : ∀ z ∈ w, z ∈ g.nodes) (hnd : ¬ w.Nodup) : ∃ c, IsSimpleCycle g c := by
  obtain ⟨l1, y, l2, l3, rfl⟩ := exists_dup_split hnd
  have h1 := List.chain'_append.1 hc
  have h2 := List.chain'_append.1 h1.1
  have hyn : y ∈ g.nodes := hmem y (by simp)
  -- the closing edge from the last entry of y :: l2 back to y
  have hclose : ∀ a ∈ (y :: l2).getLast?, E g a y := by
    intro a ha
    refine h1.2.2 a ?_ y (by simp)
    rw [getLast?_append_right l1 (y :: l2) (by simp)]
    exact ha
  -- the loop walk y :: (l2 ++ [y])
  have hloop : List.Chain' (E g) ((y :: l2) ++ [y]) := by
    refine List.chain'_append.2 ⟨h2.2.1, List.chain'_singleton y, ?_⟩
    intro a ha b hb
    simp only [List.head?_cons, Option.mem_def, Option.some_inj] at hb
    subst hb
    exact hclose a ha
  have hloop2 : List.Chain' (E g) (y :: (l2 ++ [y])) := by simpa using hloop
  have hrest := (List.chain'_cons'.1 hloop2).2
  have hrne : l2 ++ [y] ≠ [] := by simp
  obtain ⟨u, hu⟩ : ∃ u, (l2 ++ [y]).head? = some u := by
    cases hh : (l2 ++ [y]).head? with
    | none => exact absurd (List.head?_eq_none_iff.1 hh) hrne
    | some u => exact ⟨u, rfl⟩
  have hyu : E g y u := (List.chain'_cons'.1 hloop2).1 u hu
  obtain ⟨p, pc, pnd, ph, pl, psub⟩ := chain'_shorten (l2 ++ [y]).length _ le_rfl hrest
  refine ⟨y :: p.dropLast, ?_⟩
  refine cycle_of_loop y u hyu pc (by rw [ph]; exact hu) ?_ pnd hyn ?_
  · rw [pl, getLast?_append_right l2 [y] (by simp)]; rfl
  · intro z hz
    have := psub z hz
    refine hmem z ?_
    simp only [List.mem_append, List.mem_cons] at this ⊢
    tauto

/-- The depth relation: ChainGe g v k holds when a directed walk of k edges
leaves v, so the longest dependency chain from v has length at least k. -/
inductive ChainGe (g : DirGraph) : Nat → Nat → Prop
  | zero (v : Nat) : ChainGe g v 0
  | succ {v w k} : E g v w → ChainGe g w k → ChainGe g v (k + 1)

lemma chainGe_pred {g : DirGraph} : ∀ {k v}, ChainGe g v (k + 1) → ChainGe g v k := by
  intro k
  induction k with
  | zero => intro v _; exact ChainGe.zero v
  | succ j ih =>
      intro v h
      cases h with
      | succ hvw h' => exact ChainGe.succ hvw (ih h')

lemma chainGe_mono {g : DirGraph} {v : Nat} : ∀ {k j}, j ≤ k → ChainGe g v k → ChainGe g v j := by
  intro k
  induction k with
  | zero =>
      intro j hj h
      have : j = 0 := Nat.le_zero.1 hj
      subst this; exact h
  | succ k ih =>
      intro j hj h
      rcases Nat.lt_or_ge j (k + 1) with hlt | hge
      · exact ih (Nat.lt_succ_iff.1 hlt) (chainGe_pred h)
      · have : j = k + 1 := Nat.le_antisymm hj hge
        subst this; exact h

lemma chainGe_to_chain {g : DirGraph} {v k : Nat} (h : ChainGe g v k) :
    ∃ l, List.Chain (E g) v l ∧ l.length = k := by
  induction h with
  | zero v => exact ⟨[], List.Chain.nil, rfl⟩
  | succ hvw _ ih =>
      obtain ⟨l, hl, hlen⟩ := ih
      exact ⟨_ :: l, List.Chain.cons hvw hl, by simp [hlen]⟩

lemma chain_append_chainGe {g : DirGraph} {b k : Nat} :
    ∀ {l a}, List.Chain (E g) a l → l.getLast? = some b → ChainGe g b k →
      ChainGe g a (k + l.length) := by
  intro l
  induction l with
  | nil => intro a _ hlast _; simp at hlast
  | cons x l' ih =>
      intro a hchain hlast hb
      rw [List.chain_cons] at hchain
      cases l' with
      | nil =>
          simp only [List.getLast?_singleton, Option.some_inj] at hlast
          subst hlast
          exact ChainGe.succ hchain.1 hb
      | cons z t =>
          have hlast' : (z :: t).getLast? = some b := by
            rw [← hlast]; exact (List.getLast?_cons_cons).symm
          have := ih hchain.2 hlast' hb
          have e : k + (x :: z :: t).length = (k + (z :: t).length) + 1 := by simp; omega
          rw [e]
          exact ChainGe.succ hchain.1 this

lemma chain_mem_nodes {g : DirGraph} (hC : Closed g) :
    ∀ {l v}, v ∈ g.nodes → List.Chain (E g) v l → ∀ z ∈ v :: l, z ∈ g.nodes := by
  intro l
  induction l with
  | nil =>
      intro v hv _ z hz
      simp only [List.mem_singleton] at hz
      subst hz; exact hv
  | cons x l' ih =>
      intro v hv hchain z hz
      rw [List.chain_cons] at hchain
      have hx : x ∈ g.nodes := hC v hv x hchain.1
      rcases List.mem_cons.1 hz with h | h
      · subst h; exact hv
      · exact ih hx hchain.2 z h

lemma not_chainGe_of_acyclic {g : DirGraph} (hC : Closed g) (hA : Acyclic g)
    {v : Nat} (hv : v ∈ g.nodes) : ¬ ChainGe g v g.nodes.length := by
  intro h
  obtain ⟨l, hl, hlen⟩ := chainGe_to_chain h
  have hmem : ∀ z ∈ v :: l, z ∈ g.nodes := chain_mem_nodes hC hv hl
  have hnotnd : ¬ (v :: l).Nodup := by
    intro hnd
    have := List.Subperm.length_le (List.Nodup.subperm hnd hmem)
    simp [hlen] at this
  obtain ⟨c, hc⟩ := cycle_of_walk_dup (show List.Chain' (DirGraph.E g) (v :: l) from hl) hmem hnotnd
  exact hA c hc

lemma exists_depth {g : DirGraph} (hC : Closed g) (hA : Acyclic g) {v : Nat}
    (hv : v ∈ g.nodes) : ∃ k, ChainGe g v k ∧ ¬ ChainGe g v (k + 1) := by
  classical
  have hex : ∃ m, ¬ ChainGe g v m := ⟨_, not_chainGe_of_acyclic hC hA hv⟩
  have hm : ¬ ChainGe g v (Nat.find hex) := Nat.find_spec hex
  have hlt : ∀ j, j < Nat.find hex → ChainGe g v j :=
    fun j hj => not_not.1 (Nat.find_min hex hj)
  have hmpos : 0 < Nat.find hex := by
    rcases Nat.eq_zero_or_pos (Nat.find hex) with h0 | h
    · exact absurd (h0 ▸ hm) (fun h => h (ChainGe.zero v))
    · exact h
  refine ⟨Nat.find hex - 1, hlt _ (by omega), ?_⟩
  have : Nat.find hex - 1 + 1 = Nat.find hex := by omega
  rw [this]
  exact hm

/-- Modelled from the spec: one BFS layer of the Kahn-style layered
topological sort (spec section 4.2): the not-yet-assigned nodes all of whose
direct successors (that is, prerequisites when instantiated at the
prerequisite graph) are already assigned. -/
def nextLayer (g : DirGraph) (assigned : List Nat) : List Nat :=
  g.nodes.filter fun v =>
    decide (¬ v ∈ assigned) && decide (∀ w ∈ g.succs v, w ∈ assigned)

lemma mem_nextLayer {g : DirGraph} {assigned : List Nat} {v : Nat} :
    v ∈ nextLayer g assigned ↔
      v ∈ g.nodes ∧ ¬ v ∈ assigned ∧ ∀ w ∈ g.succs v, w ∈ assigned := by
  simp [nextLayer, List.mem_filter, and_assoc]

/-- The accumulated assignment after k rounds of the layered sort. -/
def assignedAfter (g : DirGraph) : Nat → List Nat
  | 0 => []
  | k+1 => assignedAfter g k ++ nextLayer g (assignedAfter g k)

/-- Modelled from the spec: the loop of _topo_sort (spec section 4.2),
emitting one co-set per round until a round assigns nothing. -/
def cosetsAux (g : DirGraph) : Nat → List Nat → List (List Nat)
  | 0, _ => []
  | fuel+1, assigned =>
      let next := nextLayer g assigned
      if next.isEmpty then [] else next :: cosetsAux g fuel (assigned ++ next)

/-- Modelled from the spec: the co-sets of the layered topological sort
(spec section 4.2, _topo_sort): co-set 0 is the nodes with no outgoing edge,
co-set k the nodes whose outgoing edges all land in earlier co-sets. -/
def cosets (g : DirGraph) : List (List Nat) :=
  cosetsAux g (g.nodes.length + 1) []

lemma mem_assignedAfter (g : DirGraph) (hC : Closed g) :
    ∀ k v, v ∈ assignedAfter g k ↔ v ∈ g.nodes ∧ ¬ ChainGe g v k := by
  intro k
  induction k with
  | zero =>
      intro v
      simp only [assignedAfter, List.not_mem_nil, false_iff]
      rintro ⟨-, h⟩
      exact h (ChainGe.zero v)
  | succ k ih =>
      intro v
      simp only [assignedAfter, List.mem_append, mem_nextLayer]
      constructor
      · rintro (h | ⟨hvn, -, hsucc⟩)
        · have := (ih v).1 h
          exact ⟨this.1, fun hc => this.2 (chainGe_pred hc)⟩
        · refine ⟨hvn, ?_⟩
          intro hc
          cases hc with
          | succ hvw hw => exact ((ih _).1 (hsucc _ hvw)).2 hw
      · rintro ⟨hvn, hnc⟩
        by_cases hva : v ∈ assignedAfter g k
        · exact Or.inl hva
        · right
          refine ⟨hvn, hva, ?_⟩
          intro w hw
          refine (ih w).2 ⟨hC v hvn w hw, ?_⟩
          intro hwk
          exact hnc (ChainGe.succ hw hwk)

lemma mem_nextLayer_assignedAfter (g : DirGraph) (hC : Closed g) (k v : Nat) :
    v ∈ nextLayer g (assignedAfter g k) ↔
      v ∈ g.nodes ∧ ChainGe g v k ∧ ¬ ChainGe g v (k + 1) := by
  rw [mem_nextLayer]
  constructor
  · rintro ⟨hvn, hva, hsucc⟩
    have hck : ChainGe g v k := by
      by_contra hck
      exact hva ((mem_assignedAfter g hC k v).2 ⟨hvn, hck⟩)
    refine ⟨hvn, hck, ?_⟩
    intro hc
    cases hc with
    | succ hvw hw => exact ((mem_assignedAfter g hC k _).1 (hsucc _ hvw)).2 hw
  · rintro ⟨hvn, hck, hnc⟩
    refine ⟨hvn, ?_, ?_⟩
    · intro hva
      exact ((mem_assignedAfter g hC k v).1 hva).2 hck
    · intro w hw
      refine (mem_assignedAfter g hC k w).2 ⟨hC v hvn w hw, ?_⟩
      intro hwk
      exact hnc (ChainGe.succ hw hwk)

lemma assignedAfter_stable (g : DirGraph) (j : Nat)
    (h : nextLayer g (assignedAfter g j) = []) :
    ∀ i, assignedAfter g (j + i) = assignedAfter g j := by
  intro i
  induction i with
  | zero => rfl
  | succ i ih =>
      show assignedAfter g ((j + i) + 1) = assignedAfter g j
      show assignedAfter g (j + i) ++ nextLayer g (assignedAfter g (j + i)) = _
      rw [ih, h, List.append_nil]

lemma cosetsAux_getD (g : DirGraph) :
    ∀ k fuel j, k < fuel →
      (cosetsAux g fuel (assignedAfter g j)).getD k [] =
        nextLayer g (assignedAfter g (j + k)) := by
  intro k
  induction k with
  | zero =>
      intro fuel j hk
      match fuel, hk with
      | fuel + 1, _ =>
        simp only [cosetsAux]
        by_cases hnext : (nextLayer g (assignedAfter g j)).isEmpty
        · rw [if_pos hnext]
          simp only [Nat.add_zero]
          rw [List.isEmpty_iff.1 hnext]
          rfl
        · rw [if_neg hnext]
          rfl
  | succ k ih =>
      intro fuel j hk
      match fuel, hk with
      | fuel + 1, hk =>
        simp only [cosetsAux]
        by_cases hnext : (nextLayer g (assignedAfter g j)).isEmpty
        · rw [if_pos hnext]
          have hstab := assignedAfter_stable g j (List.isEmpty_iff.1 hnext) (k + 1)
          rw [hstab, List.isEmpty_iff.1 hnext]
          rfl
        · rw [if_neg hnext]
          have e1 : assignedAfter g j ++ nextLayer g (assignedAfter g j) =
              assignedAfter g (j + 1) := rfl
          have e2 : j + 1 + k = j + (k + 1) := by omega
          rw [List.getD_cons_succ, e1, ih fuel (j + 1) (Nat.lt_of_succ_lt_succ hk), e2]

lemma length_cosetsAux_le (g : DirGraph) :
    ∀ fuel a, (cosetsAux g fuel a).length ≤ fuel := by
  intro fuel
  induction fuel with
  | zero => intro a; simp [cosetsAux]
  | succ fuel ih =>
      intro a
      simp only [cosetsAux]
      by_cases hnext : (nextLayer g a).isEmpty
      · rw [if_pos hnext]; simp
      · rw [if_neg hnext]
        simp only [List.length_cons]
        exact Nat.succ_le_succ (ih _)

lemma assignedAfter_nodup_subset (g : DirGraph) (hN : g.nodes.Nodup) :
    ∀ k, (assignedAfter g k).Nodup ∧ assignedAfter g k ⊆ g.nodes := by
  intro k
  induction k with
  | zero => exact ⟨List.nodup_nil, by simp [assignedAfter]⟩
  | succ k ih =>
      refine ⟨?_, ?_⟩
      · refine List.Nodup.append ih.1 (List.Nodup.filter _ hN) ?_
        intro v hv hvn
        exact (mem_nextLayer.1 hvn).2.1 hv
      · intro v hv
        rcases List.mem_append.1 hv with h | h
        · exact ih.2 h
        · exact (mem_nextLayer.1 h).1

lemma length_le_assignedAfter (g : DirGraph) :
    ∀ k, (∀ i, i < k → nextLayer g (assignedAfter g i) ≠ []) →
      k ≤ (assignedAfter g k).length := by
  intro k
  induction k with
  | zero => intro _; simp
  | succ k ih =>
      intro h
      have hk := ih fun i hi => h i (Nat.lt_succ_of_lt hi)
      have hne := h k (Nat.lt_succ_self k)
      have hpos : 1 ≤ (nextLayer g (assignedAfter g k)).length := by
        cases hl : nextLayer g (assignedAfter g k) with
        | nil => exact absurd hl hne
        | cons a t => simp
      show k + 1 ≤ (assignedAfter g k ++ nextLayer g (assignedAfter g k)).length
      rw [List.length_append]
      omega

lemma cosets_getD (g : DirGraph) (hN : g.nodes.Nodup) (k : Nat) :
    (cosets g).getD k [] = nextLayer g (assignedAfter g k) := by
  by_cases hk : k < g.nodes.length + 1
  · have := cosetsAux_getD g k (g.nodes.length + 1) 0 hk
    simpa [cosets] using this
  · have hlen : (cosets g).length ≤ g.nodes.length + 1 :=
      length_cosetsAux_le g (g.nodes.length + 1) []
    rw [List.getD_eq_default _ _ (le_trans hlen (by omega))]
    by_cases hall : ∀ i, i < k → nextLayer g (assignedAfter g i) ≠ []
    · exfalso
      have h1 := length_le_assignedAfter g k hall
      have hsub := assignedAfter_nodup_subset g hN k
      have h2 := List.Subperm.length_le (List.Nodup.subperm hsub.1 hsub.2)
      omega
    · push_neg at hall
      obtain ⟨i, hik, hie⟩ := hall
      have hstab : assignedAfter g k = assignedAfter g i := by
        have := assignedAfter_stable g i hie (k - i)
        rwa [Nat.add_sub_cancel' (Nat.le_of_lt hik)] at this
      rw [hstab, hie]

/-- Under the structural invariants, co-set k of the layered topological sort
holds exactly the nodes whose longest outgoing chain has length exactly k. -/
theorem mem_cosets_getD (g : DirGraph) (hC : Closed g) (hN : g.nodes.Nodup)
    (k v : Nat) : v ∈ (cosets g).getD k [] ↔
      v ∈ g.nodes ∧ ChainGe g v k ∧ ¬ ChainGe g v (k + 1) := by
  rw [cosets_getD g hN k]
  exact mem_nextLayer_assignedAfter g hC k v

lemma mem_flatten_of_mem_getD {cs : List (List Nat)} {j : Nat} {y : Nat}
    (h : y ∈ cs.getD j []) : y ∈ cs.flatten := by
  have hj : j < cs.length := by
    by_contra hge
    rw [List.getD_eq_default _ _ (Nat.le_of_not_lt hge)] at h
    exact List.not_mem_nil y h
  refine List.mem_flatten.2 ⟨cs.getD j [], ?_, h⟩
  rw [List.getD_eq_getElem _ _ hj]
  exact List.getElem_mem hj

lemma mem_join_cosets (g : DirGraph) (hC : Closed g) (hN : g.nodes.Nodup)
    (hA : Acyclic g) (v : Nat) (hv : v ∈ g.nodes) : v ∈ (cosets g).flatten := by
  obtain ⟨k, hk1, hk2⟩ := exists_depth hC hA hv
  exact mem_flatten_of_mem_getD ((mem_cosets_getD g hC hN k v).2 ⟨hv, hk1, hk2⟩)

lemma flatten_mem_nodes (g : DirGraph) {v : Nat}
    (hv : v ∈ (cosets g).flatten) : v ∈ g.nodes := by
  obtain ⟨c, hc, hvc⟩ := List.mem_flatten.1 hv
  have : ∃ fuel a, c ∈ cosetsAux g fuel a := ⟨_, _, hc⟩
  obtain ⟨fuel, a, hfa⟩ := this
  clear hc
  induction fuel generalizing a with
  | zero => simp [cosetsAux] at hfa
  | succ fuel ih =>
      simp only [cosetsAux] at hfa
      by_cases hnext : (nextLayer g a).isEmpty
      · rw [if_pos hnext] at hfa
        simp at hfa
      · rw [if_neg hnext] at hfa
        rcases List.mem_cons.1 hfa with h | h
        · subst h
          exact (mem_nextLayer.1 hvc).1
        · exact ih _ h

lemma cosetsAux_flatten_nodup (g : DirGraph) (hN : g.nodes.Nodup) :
    ∀ fuel a, a.Nodup →
      (cosetsAux g fuel a).flatten.Nodup ∧
        ∀ x ∈ (cosetsAux g fuel a).flatten, ¬ x ∈ a := by
  intro fuel
  induction fuel with
  | zero => intro a _; simp [cosetsAux]
  | succ fuel ih =>
      intro a hand
      simp only [cosetsAux]
      by_cases hnext : (nextLayer g a).isEmpty
      · rw [if_pos hnext]; simp
      · rw [if_neg hnext]
        have hlnd : (nextLayer g a).Nodup := List.Nodup.filter _ hN
        have hldisj : ∀ x ∈ nextLayer g a, ¬ x ∈ a :=
          fun x hx => (mem_nextLayer.1 hx).2.1
        have hand' : (a ++ nextLayer g a).Nodup := by
          refine List.Nodup.append hand hlnd ?_
          intro v hv hvn
          exact hldisj v hvn hv
        obtain ⟨ihn, ihd⟩ := ih (a ++ nextLayer g a) hand'
        simp only [List.flatten_cons]
        constructor
        · refine List.Nodup.append hlnd ihn ?_
          intro v hv hvf
          exact ihd v hvf (List.mem_append_right a hv)
        · intro x hx
          rcases List.mem_append.1 hx with h | h
          · exact hldisj x h
          · intro hxa
            exact ihd x h (List.mem_append_left _ hxa)

lemma cosets_flatten_nodup (g : DirGraph) (hN : g.nodes.Nodup) :
    (cosets g).flatten.Nodup :=
  (cosetsAux_flatten_nodup g hN (g.nodes.length + 1) [] List.nodup_nil).1

lemma indexOf_flatten_lt (cs : List (List Nat)) (hnd : cs.flatten.Nodup) :
    ∀ i j x y, i < j → x ∈ cs.getD i [] → y ∈ cs.getD j [] →
      cs.flatten.indexOf x < cs.flatten.indexOf y := by
  induction cs with
  | nil =>
      intro i j x y _ hx _
      rw [List.getD_eq_default _ _ (by simp)] at hx
      exact absurd hx (List.not_mem_nil x)
  | cons c rest ih =>
      intro i j x y hij hx hy
      simp only [List.flatten_cons] at hnd ⊢
      have hdisj := List.disjoint_of_nodup_append hnd
      match j, hij with
      | j + 1, hij =>
        have hy' : y ∈ rest.getD j [] := hy
        have hyf : y ∈ rest.flatten := mem_flatten_of_mem_getD hy'
        have hyc : ¬ y ∈ c := fun h => hdisj h hyf
        rw [List.indexOf_append_of_not_mem hyc]
        cases i with
        | zero =>
            have hxc : x ∈ c := hx
            rw [List.indexOf_append_of_mem hxc]
            have := List.indexOf_lt_length.2 hxc
            omega
        | succ i =>
            have hx' : x ∈ rest.getD i [] := hx
            have hxf : x ∈ rest.flatten := mem_flatten_of_mem_getD hx'
            have hxc : ¬ x ∈ c := fun h => hdisj h hxf
            rw [List.indexOf_append_of_not_mem hxc]
            have := ih (List.Nodup.of_append_right hnd) i j x y
              (Nat.lt_of_succ_lt_succ hij) hx' hy'
            omega

/-- Transitive dependence along the edges of the graph: a directed walk of at
least one edge from a to b. -/
def Reaches (g : DirGraph) (a b : Nat) : Prop :=
  ∃ l, l ≠ [] ∧ List.Chain (E g) a l ∧ l.getLast? = some b

lemma reaches_chainGe (g : DirGraph) {a b : Nat} (hr : Reaches g a b) {k : Nat}
    (hb : ChainGe g b k) : ChainGe g a (k + 1) := by
  obtain ⟨l, hne, hchain, hlast⟩ := hr
  have h := chain_append_chainGe hchain hlast hb
  refine chainGe_mono ?_ h
  have : 1 ≤ l.length := by
    cases l with
    | nil => exact absurd rfl hne
    | cons z t => simp
  omega

/-- In the flattened co-sets, a node strictly precedes every node that
transitively depends on it. -/
lemma flatten_cosets_ordering (g : DirGraph) (hC : Closed g) (hN : g.nodes.Nodup)
    {a b : Nat} (ha : a ∈ (cosets g).flatten) (hb : b ∈ (cosets g).flatten)
    (hr : Reaches g a b) :
    (cosets g).flatten.indexOf b < (cosets g).flatten.indexOf a := by
  obtain ⟨ca, hca, hain⟩ := List.mem_flatten.1 ha
  obtain ⟨cb, hcb, hbin⟩ := List.mem_flatten.1 hb
  obtain ⟨i, hi, hcai⟩ := List.getElem_of_mem hca
  obtain ⟨j, hj, hcbj⟩ := List.getElem_of_mem hcb
  have hai : a ∈ (cosets g).getD i [] := by
    rw [List.getD_eq_getElem _ _ hi, hcai]; exact hain
  have hbj : b ∈ (cosets g).getD j [] := by
    rw [List.getD_eq_getElem _ _ hj, hcbj]; exact hbin
  have hda := (mem_cosets_getD g hC hN i a).1 hai
  have hdb := (mem_cosets_getD g hC hN j b).1 hbj
  have hji : j < i := by
    by_contra hge
    have hij : i ≤ j := Nat.le_of_not_lt hge
    have : ChainGe g a (j + 1) := reaches_chainGe g hr hdb.2.1
    exact hda.2.2 (chainGe_mono (Nat.succ_le_succ hij) this)
  exact indexOf_flatten_lt (cosets g) (cosets_flatten_nodup g hN) j i b a hji hbj hai

lemma two_le_length_of_cycle {g : DirGraph} (hS : NoSelfLoop g) {c : List Nat}
    (hc : IsSimpleCycle g c) : 2 ≤ c.length := by
  obtain ⟨hne, hchain, hnd, hmem⟩ := hc
  match c, hne with
  | [v], _ =>
      exfalso
      have hvv : E g v v := by
        have := List.chain'_cons'.1 hchain
        exact this.1 v rfl
      exact hS v (hmem v (by simp)) hvv
  | v :: w :: t, _ => simp

end DirGraph

/-- Modelled from the spec: the single error kind of precondition violations
(spec section 7; the tests expect AssertionError from every rejected
mutation). -/
inductive SkillError where
  | assertionError
deriving DecidableEq

/-- Modelled from the spec: a skill record (spec section 3): identity (absent
until the repository assigns one on first save), name, description, and the
set of prerequisite skill ids held as a duplicate-free list. -/
structure Skill where
  id : Option Nat
  name : String
  description : String
  prerequisite_ids : List Nat
deriving DecidableEq

/-- Modelled from the spec: Skill.build makes an unsaved skill with no
identity and no prerequisites. -/
def Skill.build (name description : String) : Skill :=
  ⟨none, name, description, []⟩

/-- Modelled from the spec: SkillGraph (spec section 3): the full node set,
together with the next identity the repository will assign; identities are
assigned at creation and never reused. -/
structure SkillGraph where
  skills : List Skill
  nextId : Nat
deriving DecidableEq

namespace SkillGraph

/-- Modelled from the spec: SkillGraph.load (spec section 4.1): reconstructs
the graph from the repository records, which are trusted as loaded; the next
identity is one past the largest assigned identity. -/
def load (records : List Skill) : SkillGraph :=
  ⟨records, (records.map fun s => s.id.getD 0).foldr max 0 + 1⟩

/-- Modelled from the spec: get(id) (spec section 4.1): the stored skill with
the given identity, if any. -/
def get (g : SkillGraph) (i : Nat) : Option Skill :=
  g.skills.find? fun s => s.id == some i

/-- Modelled from the spec: add(skill) (spec section 4.1): inserts a new
skill and returns the stored skill with its assigned identity; a skill that
already carries an identity is already present (identities are assigned only
by the graph and never reused), so re-adding it is a precondition
violation. -/
def add (g : SkillGraph) (s : Skill) : Except SkillError (Skill × SkillGraph) :=
  match s.id with
  | some _ => .error .assertionError
  | none =>
      let stored : Skill := { s with id := some g.nextId }
      .ok (stored, ⟨g.skills ++ [stored], g.nextId + 1⟩)

/-- Modelled from the spec: delete(id) (spec section 4.1): removes the skill
with the given id and removes the id from the prerequisite set of every
other skill; a missing id is a precondition violation. -/
def delete (g : SkillGraph) (i : Nat) : Except SkillError SkillGraph :=
  match g.get i with
  | none => .error .assertionError
  | some _ =>
      .ok ⟨(g.skills.filter fun s => decide (¬ s.id = some i)).map
            fun s => { s with
              prerequisite_ids := s.prerequisite_ids.filter fun p => decide (¬ p = i) },
          g.nextId⟩

/-- Modelled from the spec: add_prerequisite(skill_id, prerequisite_id) (spec
section 4.1): adds the edge; a missing id on either side, a self-loop, or a
duplicate edge is a precondition violation. -/
def add_prerequisite (g : SkillGraph) (skill_id prerequisite_id : Nat) :
    Except SkillError SkillGraph :=
  match g.get skill_id, g.get prerequisite_id with
  | some s, some _ =>
      if skill_id = prerequisite_id then .error .assertionError
      else if prerequisite_id ∈ s.prerequisite_ids then .error .assertionError
      else .ok ⟨g.skills.map fun t =>
          if t.id = some skill_id then
            { t with prerequisite_ids := t.prerequisite_ids ++ [prerequisite_id] }
          else t, g.nextId⟩
  | _, _ => .error .assertionError

/-- Modelled from the spec: delete_prerequisite(skill_id, prerequisite_id)
(spec section 4.1): removes the edge; a missing id on either side or a
missing edge is a precondition violation. -/
def delete_prerequisite (g : SkillGraph) (skill_id prerequisite_id : Nat) :
    Except SkillError SkillGraph :=
  match g.get skill_id, g.get prerequisite_id with
  | some s, some _ =>
      if prerequisite_id ∈ s.prerequisite_ids then
        .ok ⟨g.skills.map fun t =>
            if t.id = some skill_id then
              { t with prerequisite_ids :=
                  t.prerequisite_ids.filter fun p => decide (¬ p = prerequisite_id) }
            else t, g.nextId⟩
      else .error .assertionError
  | _, _ => .error .assertionError

/-- Modelled from the spec: prerequisites(id) (spec section 4.1): the skill
records the given skill directly depends on. -/
def prerequisites (g : SkillGraph) (i : Nat) : List Skill :=
  match g.get i with
  | none => []
  | some s => s.prerequisite_ids.filterMap g.get

/-- Modelled from the spec: successors(id) (spec section 4.1): the skills
that directly depend on the given id, computed by scanning the
prerequisite sets of all skills. -/
def successors (g : SkillGraph) (i : Nat) : List Skill :=
  g.skills.filter fun s => decide (i ∈ s.prerequisite_ids)

/-- The assigned identities of the stored skills, in storage order. -/
def ids (g : SkillGraph) : List Nat := g.skills.filterMap fun s => s.id

/-- The direct prerequisite ids of the skill with the given id. -/
def prereqIds (g : SkillGraph) (i : Nat) : List Nat :=
  match g.get i with
  | none => []
  | some s => s.prerequisite_ids

/-- The prerequisite digraph of the skill graph: an edge from each skill id
to each of its direct prerequisite ids. -/
def prereqGraph (g : SkillGraph) : DirGraph := ⟨g.ids, g.prereqIds⟩

/-- The successor ids of the given id, by scanning prerequisite sets. -/
def successorIds (g : SkillGraph) (i : Nat) : List Nat :=
  (g.skills.filter fun s => decide (i ∈ s.prerequisite_ids)).filterMap fun s => s.id

/-- Modelled from the spec: SkillMap.build_successors (spec section 4.2) read
as a digraph: nodes are all skill ids, and edges go from each id to the ids
of the skills that list it as a prerequisite. -/
def successorsGraph (g : SkillGraph) : DirGraph := ⟨g.ids, g.successorIds⟩

/-- Modelled from the spec: the prerequisite-replacement step of the REST
update path (spec sections 4.1 and 7): clear the stored prerequisite list,
then re-add each requested prerequisite through add_prerequisite. -/
def set_prerequisites (g : SkillGraph) (i : Nat) (pids : List Nat) :
    Except SkillError SkillGraph :=
  match g.get i with
  | none => .error .assertionError
  | some _ =>
      let cleared : SkillGraph :=
        ⟨g.skills.map fun t =>
            if t.id = some i then { t with prerequisite_ids := [] } else t,
         g.nextId⟩
      pids.foldlM (fun h pid => h.add_prerequisite i pid) cleared

/-- Modelled from the spec: the REST handler around a prerequisite update
(spec section 7): duplicate prerequisites and self-loops are rejected up
front, the update is then applied all-or-nothing, and on any failure the
visible graph is the unchanged original.  The first component is the state
visible to the caller after the call. -/
def update_prerequisites (g : SkillGraph) (i : Nat) (pids : List Nat) :
    SkillGraph × Except SkillError Unit :=
  if ¬ pids.Nodup then (g, .error .assertionError)
  else if i ∈ pids then (g, .error .assertionError)
  else match g.set_prerequisites i pids with
    | .ok g2 => (g2, .ok ())
    | .error e => (g, .error e)

end SkillGraph

/-- Modelled from the spec: a lesson (spec section 6): a stable lesson id,
the position of its unit in the course, its position within the unit, and
the ids of the skills it teaches (its skill-list property). -/
structure Lesson where
  lesson_id : Nat
  unit_pos : Nat
  lesson_pos : Nat
  skill_ids : List Nat
deriving DecidableEq

/-- The lesson ordering used by the skill map: ascending unit position, then
ascending lesson position within the unit. -/
def lessonLE (a b : Lesson) : Prop :=
  a.unit_pos < b.unit_pos ∨ (a.unit_pos = b.unit_pos ∧ a.lesson_pos ≤ b.lesson_pos)

instance (a b : Lesson) : Decidable (lessonLE a b) :=
  inferInstanceAs (Decidable (a.unit_pos < b.unit_pos ∨
    (a.unit_pos = b.unit_pos ∧ a.lesson_pos ≤ b.lesson_pos)))

/-- Modelled from the spec: SkillMap (spec section 4.2): a read-only view
joining the skill graph of a course with its lesson list. -/
structure SkillMap where
  graph : SkillGraph
  lessons : List Lesson

namespace SkillMap

/-- Modelled from the spec: get_lessons_for_skill(skill) (spec section 4.2):
the lessons whose skill list holds the id of the skill, ordered by unit and
lesson position; the empty list when none. -/
def get_lessons_for_skill (m : SkillMap) (s : Skill) : List Lesson :=
  (m.lessons.filter fun l =>
      match s.id with
      | some i => decide (i ∈ l.skill_ids)
      | none => false).mergeSort fun a b => decide (lessonLE a b)

/-- Modelled from the spec: _topo_sort (spec section 4.2): the co-sets of the
layered topological sort of the prerequisite graph. -/
def topo_sort (m : SkillMap) : List (List Nat) :=
  DirGraph.cosets m.graph.prereqGraph

/-- Modelled from the spec: skills(sort_by=prerequisites) (spec section 4.2):
the co-sets flattened in order, each id resolved to its stored skill, so
skills of one co-set keep the stable storage order of the graph as the
deterministic tie-break. -/
def skillsByPrerequisites (m : SkillMap) : List Skill :=
  m.topo_sort.flatten.filterMap m.graph.get

end SkillMap

/-- Modelled from the spec: SkillMapMetrics (spec section 4.3): the analytics
layer, holding the digraph built from the successors mapping of the skill
map. -/
structure SkillMapMetrics where
  nxgraph : DirGraph

/-- Modelled from the spec: the SkillMapMetrics constructor (spec section
4.3): its graph has one node per skill id of the successors mapping and one
edge per successor pair. -/
def SkillMapMetrics.ofMap (m : SkillMap) : SkillMapMetrics :=
  ⟨m.graph.successorsGraph⟩

/-- Modelled from the spec: SkillMapMetrics.simple_cycles (spec section
4.3). -/
def SkillMapMetrics.simple_cycles (t : SkillMapMetrics) : List (List Nat) :=
  DirGraph.simpleCycles t.nxgraph

/-- The sample graph of the tests, built through the mutation API: six
skills a, b, d, c, e, f with d depending on a and b, e on c, and f on e. -/
def sampleBuild : Except SkillError SkillGraph := do
  let g0 := SkillGraph.load []
  let (sa, g1) ← g0.add (Skill.build ("a") (""))
  let (sb, g2) ← g1.add (Skill.build ("b") (""))
  let (sd, g3) ← g2.add (Skill.build ("d") (""))
  let g4 ← g3.add_prerequisite (sd.id.getD 0) (sa.id.getD 0)
  let g5 ← g4.add_prerequisite (sd.id.getD 0) (sb.id.getD 0)
  let (sc, g6) ← g5.add (Skill.build ("c") (""))
  let (se, g7) ← g6.add (Skill.build ("e") (""))
  let g8 ← g7.add_prerequisite (se.id.getD 0) (sc.id.getD 0)
  let (sf, g9) ← g8.add (Skill.build ("f") (""))
  g9.add_prerequisite (sf.id.getD 0) (se.id.getD 0)

/-- The built sample graph; skills a, b, d, c, e, f carry ids 1, 2, 3, 4, 5,
6 in creation order. -/
def sampleGraph : SkillGraph :=
  sampleBuild.toOption.getD (SkillGraph.load [])

/-- The cyclic variant of the sample graph: the edge making a depend on d is
added, closing the 2-cycle a, d. -/
def sampleCyclic : SkillGraph :=
  (sampleGraph.add_prerequisite 1 3).toOption.getD (SkillGraph.load [])

/-- The acyclic sample graph extended with a disjoint 2-cycle of fresh
skills g and h depending on each other. -/
def sampleDisconnectedBuild : Except SkillError SkillGraph := do
  let (sg, h1) ← sampleGraph.add (Skill.build ("g") (""))
  let (sh, h2) ← h1.add (Skill.build ("h") (""))
  let h3 ← h2.add_prerequisite (sg.id.getD 0) (sh.id.getD 0)
  h3.add_prerequisite (sh.id.getD 0) (sg.id.getD 0)

def sampleDisconnected : SkillGraph :=
  sampleDisconnectedBuild.toOption.getD (SkillGraph.load [])

/-- The doubly cyclic variant: both the a, d cycle and the disjoint g, h
cycle are present. -/
def sampleTwoCyclesBuild : Except SkillError SkillGraph := do
  let (sg, h1) ← sampleCyclic.add (Skill.build ("g") (""))
  let (sh, h2) ← h1.add (Skill.build ("h") (""))
  let h3 ← h2.add_prerequisite (sg.id.getD 0) (sh.id.getD 0)
  h3.add_prerequisite (sh.id.getD 0) (sg.id.getD 0)

def sampleTwoCycles : SkillGraph :=
  sampleTwoCyclesBuild.toOption.getD (SkillGraph.load [])

namespace SkillGraph

lemma mem_ids {g : SkillGraph} {i : Nat} :
    i ∈ g.ids ↔ ∃ s ∈ g.skills, s.id = some i := by
  simp [ids, List.mem_filterMap]

lemma get_id {g : SkillGraph} {i : Nat} {s : Skill} (h : g.get i = some s) :
    s.id = some i := by
  have := List.find?_some h
  simpa using this

lemma get_mem {g : SkillGraph} {i : Nat} {s : Skill} (h : g.get i = some s) :
    s ∈ g.skills :=
  List.mem_of_find?_eq_some h

lemma exists_get_iff_mem_ids {g : SkillGraph} {i : Nat} :
    (∃ s, g.get i = some s) ↔ i ∈ g.ids := by
  constructor
  · rintro ⟨s, hs⟩
    exact mem_ids.2 ⟨s, get_mem hs, get_id hs⟩
  · intro h
    obtain ⟨s, hsmem, hsid⟩ := mem_ids.1 h
    have hsome : (g.skills.find? fun s => s.id == some i).isSome :=
      List.find?_isSome.2 ⟨s, hsmem, by simp [hsid]⟩
    obtain ⟨t, ht⟩ := Option.isSome_iff_exists.1 hsome
    exact ⟨t, ht⟩

lemma get_eq_none_iff {g : SkillGraph} {i : Nat} :
    g.get i = none ↔ ¬ i ∈ g.ids := by
  constructor
  · intro h hm
    obtain ⟨s, hs⟩ := exists_get_iff_mem_ids.2 hm
    rw [h] at hs
    exact Option.noConfusion hs
  · intro h
    cases hg : g.get i with
    | none => rfl
    | some s => exact absurd (exists_get_iff_mem_ids.1 ⟨s, hg⟩) h

lemma prereqIds_of_get {g : SkillGraph} {i : Nat} {s : Skill}
    (h : g.get i = some s) : g.prereqIds i = s.prerequisite_ids := by
  simp [prereqIds, h]

lemma prereqIds_of_none {g : SkillGraph} {i : Nat} (h : g.get i = none) :
    g.prereqIds i = [] := by
  simp [prereqIds, h]

lemma find?_id_map (l : List Skill) (f : Skill → Skill)
    (hid : ∀ t, (f t).id = t.id) (i : Nat) :
    ((l.map f).find? fun s => s.id == some i) =
      (l.find? fun s => s.id == some i).map f := by
  rw [List.find?_map]
  have he : ((fun s : Skill => s.id == some i) ∘ f) = fun s : Skill => s.id == some i := by
    funext t
    simp [Function.comp, hid]
  rw [he]

/-- The update applied by add_prerequisite to the stored skill list. -/
def addEdgeFun (skill_id prerequisite_id : Nat) : Skill → Skill := fun t =>
  if t.id = some skill_id then
    { t with prerequisite_ids := t.prerequisite_ids ++ [prerequisite_id] }
  else t

lemma addEdgeFun_id (skill_id prerequisite_id : Nat) (t : Skill) :
    (addEdgeFun skill_id prerequisite_id t).id = t.id := by
  unfold addEdgeFun
  by_cases h : t.id = some skill_id
  · rw [if_pos h]
  · rw [if_neg h]

/-- The update applied by delete_prerequisite to the stored skill list. -/
def dropEdgeFun (skill_id prerequisite_id : Nat) : Skill → Skill := fun t =>
  if t.id = some skill_id then
    { t with prerequisite_ids :=
        t.prerequisite_ids.filter fun p => decide (¬ p = prerequisite_id) }
  else t

lemma dropEdgeFun_id (skill_id prerequisite_id : Nat) (t : Skill) :
    (dropEdgeFun skill_id prerequisite_id t).id = t.id := by
  unfold dropEdgeFun
  by_cases h : t.id = some skill_id
  · rw [if_pos h]
  · rw [if_neg h]

lemma add_prerequisite_ok {g : SkillGraph} {sid pid : Nat} {s : Skill}
    (hs : g.get sid = some s) (hq : ∃ q, g.get pid = some q) (hne : ¬ sid = pid)
    (hdup : ¬ pid ∈ s.prerequisite_ids) :
    g.add_prerequisite sid pid =
      .ok ⟨g.skills.map (addEdgeFun sid pid), g.nextId⟩ := by
  obtain ⟨q, hqq⟩ := hq
  rw [add_prerequisite, hs, hqq]
  dsimp only
  rw [if_neg hne, if_neg hdup]
  rfl

lemma add_prerequisite_error_iff (g : SkillGraph) (sid pid : Nat) :
    g.add_prerequisite sid pid = .error .assertionError ↔
      ¬ sid ∈ g.ids ∨ ¬ pid ∈ g.ids ∨ sid = pid ∨ pid ∈ g.prereqIds sid := by
  cases hs : g.get sid with
  | none =>
      refine iff_of_true ?_ (Or.inl (get_eq_none_iff.1 hs))
      rw [add_prerequisite, hs]
  | some s =>
      cases hq : g.get pid with
      | none =>
          refine iff_of_true ?_ (Or.inr (Or.inl (get_eq_none_iff.1 hq)))
          rw [add_prerequisite, hs, hq]
      | some q =>
          by_cases hsp : sid = pid
          · refine iff_of_true ?_ (Or.inr (Or.inr (Or.inl hsp)))
            rw [add_prerequisite, hs, hq]
            dsimp only
            rw [if_pos hsp]
          · by_cases hdup : pid ∈ s.prerequisite_ids
            · refine iff_of_true ?_
                (Or.inr (Or.inr (Or.inr ((prereqIds_of_get hs) ▸ hdup))))
              rw [add_prerequisite, hs, hq]
              dsimp only
              rw [if_neg hsp, if_pos hdup]
            · refine iff_of_false ?_ ?_
              · rw [add_prerequisite_ok hs ⟨q, hq⟩ hsp hdup]
                intro h
                exact Except.noConfusion h
              · push_neg
                refine ⟨?_, ?_, hsp, ?_⟩
                · simpa using exists_get_iff_mem_ids.1 ⟨s, hs⟩
                · simpa using exists_get_iff_mem_ids.1 ⟨q, hq⟩
                · rw [prereqIds_of_get hs]
                  simpa using hdup

lemma get_map_addEdge (g : SkillGraph) (sid pid i : Nat) (n : Nat) :
    (SkillGraph.mk (g.skills.map (addEdgeFun sid pid)) n).get i =
      (g.get i).map (addEdgeFun sid pid) := by
  unfold get
  exact find?_id_map g.skills _ (addEdgeFun_id sid pid) i

lemma get_map_dropEdge (g : SkillGraph) (sid pid i : Nat) (n : Nat) :
    (SkillGraph.mk (g.skills.map (dropEdgeFun sid pid)) n).get i =
      (g.get i).map (dropEdgeFun sid pid) := by
  unfold get
  exact find?_id_map g.skills _ (dropEdgeFun_id sid pid) i

lemma delete_prerequisite_ok {g : SkillGraph} {sid pid : Nat} {s : Skill}
    (hs : g.get sid = some s) (hq : ∃ q, g.get pid = some q)
    (hmem : pid ∈ s.prerequisite_ids) :
    g.delete_prerequisite sid pid =
      .ok ⟨g.skills.map (dropEdgeFun sid pid), g.nextId⟩ := by
  obtain ⟨q, hqq⟩ := hq
  rw [delete_prerequisite, hs, hqq]
  dsimp only
  rw [if_pos hmem]
  rfl

lemma delete_prerequisite_error_iff (g : SkillGraph) (sid pid : Nat) :
    g.delete_prerequisite sid pid = .error .assertionError ↔
      ¬ sid ∈ g.ids ∨ ¬ pid ∈ g.ids ∨ ¬ pid ∈ g.prereqIds sid := by
  cases hs : g.get sid with
  | none =>
      refine iff_of_true ?_ (Or.inl (get_eq_none_iff.1 hs))
      rw [delete_prerequisite, hs]
  | some s =>
      cases hq : g.get pid with
      | none =>
          refine iff_of_true ?_ (Or.inr (Or.inl (get_eq_none_iff.1 hq)))
          rw [delete_prerequisite, hs, hq]
      | some q =>
          by_cases hmem : pid ∈ s.prerequisite_ids
          · refine iff_of_false ?_ ?_
            · rw [delete_prerequisite_ok hs ⟨q, hq⟩ hmem]
              intro h
              exact Except.noConfusion h
            · push_neg
              refine ⟨?_, ?_, ?_⟩
              · simpa using exists_get_iff_mem_ids.1 ⟨s, hs⟩
              · simpa using exists_get_iff_mem_ids.1 ⟨q, hq⟩
              · rw [prereqIds_of_get hs]
                simpa using hmem
          · refine iff_of_true ?_
              (Or.inr (Or.inr (fun h => hmem ((prereqIds_of_get hs) ▸ h))))
            rw [delete_prerequisite, hs, hq]
            dsimp only
            rw [if_neg hmem]

lemma add_prerequisite_ok_inv {g : SkillGraph} {sid pid : Nat} {g' : SkillGraph}
    (h : g.add_prerequisite sid pid = .ok g') :
    ∃ s, g.get sid = some s ∧ (∃ q, g.get pid = some q) ∧ ¬ sid = pid ∧
      ¬ pid ∈ s.prerequisite_ids ∧
      g' = ⟨g.skills.map (addEdgeFun sid pid), g.nextId⟩ := by
  cases hs : g.get sid with
  | none =>
      rw [add_prerequisite, hs] at h
      exact Except.noConfusion h
  | some s =>
      cases hq : g.get pid with
      | none =>
          rw [add_prerequisite, hs, hq] at h
          exact Except.noConfusion h
      | some q =>
          rw [add_prerequisite, hs, hq] at h
          dsimp only at h
          by_cases hsp : sid = pid
          · rw [if_pos hsp] at h
            exact Except.noConfusion h
          · rw [if_neg hsp] at h
            by_cases hdup : pid ∈ s.prerequisite_ids
            · rw [if_pos hdup] at h
              exact Except.noConfusion h
            · rw [if_neg hdup] at h
              exact ⟨s, rfl, ⟨q, rfl⟩, hsp, hdup, (Except.ok.inj h).symm⟩

/-- The structural well-formedness maintained by the graph lifecycle:
every assigned identity and every referenced prerequisite id is below the
next identity to assign. -/
def WF (g : SkillGraph) : Prop :=
  (∀ s ∈ g.skills, s.id.getD 0 < g.nextId) ∧
  ∀ s ∈ g.skills, ∀ p ∈ s.prerequisite_ids, p < g.nextId

instance (g : SkillGraph) : Decidable (WF g) :=
  inferInstanceAs (Decidable ((∀ s ∈ g.skills, s.id.getD 0 < g.nextId) ∧
    ∀ s ∈ g.skills, ∀ p ∈ s.prerequisite_ids, p < g.nextId))

lemma find?_id_unique : ∀ (l : List Skill),
    (l.filterMap fun t => t.id).Nodup →
    ∀ (s : Skill) (i : Nat), s ∈ l → s.id = some i →
      (l.find? fun t => t.id == some i) = some s := by
  intro l
  induction l with
  | nil =>
      intro _ s i h
      exact absurd h (List.not_mem_nil s)
  | cons t rest ih =>
      intro hnd s i hmem hid
      by_cases ht : t.id = some i
      · have hfind : ((t :: rest).find? fun u => u.id == some i) = some t :=
          List.find?_cons_of_pos rest (by simp [ht])
        rcases List.mem_cons.1 hmem with h | h
        · subst h; exact hfind
        · exfalso
          have hi_rest : i ∈ rest.filterMap fun u => u.id :=
            List.mem_filterMap.2 ⟨s, h, hid⟩
          rw [List.filterMap_cons, ht] at hnd
          exact (List.nodup_cons.1 hnd).1 hi_rest
      · have hfind : ((t :: rest).find? fun u => u.id == some i) =
            rest.find? fun u => u.id == some i :=
          List.find?_cons_of_neg rest (by simp [ht])
        rcases List.mem_cons.1 hmem with h | h
        · subst h; exact absurd hid ht
        · rw [hfind]
          refine ih ?_ s i h hid
          rw [List.filterMap_cons] at hnd
          cases htid : t.id with
          | none => rwa [htid] at hnd
          | some j =>
              rw [htid] at hnd
              exact (List.nodup_cons.1 hnd).2

lemma get_of_mem {g : SkillGraph} (hnd : g.ids.Nodup) {s : Skill} {i : Nat}
    (hs : s ∈ g.skills) (hid : s.id = some i) : g.get i = some s :=
  find?_id_unique g.skills hnd s i hs hid

lemma length_filter_ne_of_nodup : ∀ (l : List Skill) (i : Nat),
    (l.filterMap fun t => t.id).Nodup →
    (∃ s ∈ l, s.id = some i) →
    (l.filter fun t => decide (¬ t.id = some i)).length + 1 = l.length := by
  intro l
  induction l with
  | nil =>
      intro i _ hex
      simp at hex
  | cons t rest ih =>
      intro i hnd hex
      by_cases ht : t.id = some i
      · -- t is dropped; by freshness no other skill matches
        have hrest : ∀ u ∈ rest, ¬ u.id = some i := by
          intro u hu hui
          have hi_rest : i ∈ rest.filterMap fun v => v.id :=
            List.mem_filterMap.2 ⟨u, hu, hui⟩
          rw [List.filterMap_cons, ht] at hnd
          exact (List.nodup_cons.1 hnd).1 hi_rest
        have hkeep : (rest.filter fun u => decide (¬ u.id = some i)) = rest := by
          rw [List.filter_eq_self]
          intro u hu
          simpa using hrest u hu
        rw [List.filter_cons, if_neg (by simp [ht]), hkeep]
        simp
      · have hex' : ∃ s ∈ rest, s.id = some i := by
          rcases hex with ⟨s, hsm, hsi⟩
          rcases List.mem_cons.1 hsm with h | h
          · exact absurd (h ▸ hsi) ht
          · exact ⟨s, h, hsi⟩
        have hnd' : (rest.filterMap fun t => t.id).Nodup := by
          rw [List.filterMap_cons] at hnd
          cases htid : t.id with
          | none => rwa [htid] at hnd
          | some j =>
              rw [htid] at hnd
              exact (List.nodup_cons.1 hnd).2
        rw [List.filter_cons, if_pos (by simp [ht])]
        simp only [List.length_cons]
        rw [← ih i hnd' hex']

lemma scrub_eq_self {s : Skill} {i : Nat} (h : ¬ i ∈ s.prerequisite_ids) :
    { s with prerequisite_ids :=
        s.prerequisite_ids.filter fun p => decide (¬ p = i) } = s := by
  have he : s.prerequisite_ids.filter (fun p => decide (¬ p = i)) =
      s.prerequisite_ids := by
    rw [List.filter_eq_self]
    intro a ha
    simp only [decide_eq_true_eq]
    intro hai
    exact h (hai ▸ ha)
  rw [he]

end SkillGraph

lemma filterMap_eq_map_of_isSome {α β : Type} (f : α → Option β) (d : β) :
    ∀ l : List α, (∀ x ∈ l, (f x).isSome = true) →
      l.filterMap f = l.map fun x => (f x).getD d := by
  intro l
  induction l with
  | nil => intro _; rfl
  | cons a t ih =>
      intro h
      have ha := h a (List.mem_cons_self a t)
      obtain ⟨b, hb⟩ := Option.isSome_iff_exists.1 ha
      rw [List.filterMap_cons, hb, List.map_cons]
      rw [ih fun x hx => h x (List.mem_cons_of_mem a hx)]
      simp [hb]

lemma nodup_indexOf_getElem {l : List Nat} (h : l.Nodup) (i : Nat)
    (hi : i < l.length) : l.indexOf l[i] = i := by
  have h1 : l.indexOf l[i] < l.length :=
    List.indexOf_lt_length.2 (List.getElem_mem hi)
  have h2 : l[l.indexOf l[i]] = l[i] := List.getElem_indexOf h1
  exact (List.Nodup.getElem_inj_iff h).1 h2

lemma lessonLE_trans (a b c : Lesson) (h1 : lessonLE a b) (h2 : lessonLE b c) :
    lessonLE a c := by
  unfold lessonLE at h1 h2 ⊢
  omega

lemma lessonLE_total (a b : Lesson) : lessonLE a b ∨ lessonLE b a := by
  unfold lessonLE
  omega

/-- The graph obtained from the sample graph by making b depend on a. -/
def sampleAdd21 : SkillGraph :=
  (sampleGraph.add_prerequisite 2 1).toOption.getD (SkillGraph.load [])

/-- The graph obtained from the sample graph by deleting the edge from d to
a. -/
def sampleDrop31 : SkillGraph :=
  (sampleGraph.delete_prerequisite 3 1).toOption.getD (SkillGraph.load [])

/-- C4: add_prerequisite(skill_id, prerequisite_id) fails, with the uniform
assertion error, exactly when one of the two ids is not present in the
graph, the edge is a self-loop, or the edge already exists; otherwise it
succeeds and appends exactly that edge to the prerequisite list of the
skill. -/
theorem claim_C4_add_prerequisite (g : SkillGraph) (sid pid : Nat) :
    (g.add_prerequisite sid pid = .error .assertionError ↔
      ¬ sid ∈ g.ids ∨ ¬ pid ∈ g.ids ∨ sid = pid ∨ pid ∈ g.prereqIds sid) ∧
    (¬ (¬ sid ∈ g.ids ∨ ¬ pid ∈ g.ids ∨ sid = pid ∨ pid ∈ g.prereqIds sid) →
      ∃ g', g.add_prerequisite sid pid = .ok g' ∧
        g'.prereqIds sid = g.prereqIds sid ++ [pid]) := by
  refine ⟨SkillGraph.add_prerequisite_error_iff g sid pid, ?_⟩
  intro h
  push_neg at h
  obtain ⟨h1, h2, h3, h4⟩ := h
  obtain ⟨s, hs⟩ := SkillGraph.exists_get_iff_mem_ids.2 h1
  obtain ⟨q, hq⟩ := SkillGraph.exists_get_iff_mem_ids.2 h2
  have hdup : ¬ pid ∈ s.prerequisite_ids := by
    rw [SkillGraph.prereqIds_of_get hs] at h4
    exact h4
  refine ⟨_, SkillGraph.add_prerequisite_ok hs ⟨q, hq⟩ h3 hdup, ?_⟩
  have hget := SkillGraph.get_map_addEdge g sid pid sid g.nextId
  rw [hs] at hget
  have hupd : SkillGraph.addEdgeFun sid pid s =
      { s with prerequisite_ids := s.prerequisite_ids ++ [pid] } := by
    unfold SkillGraph.addEdgeFun
    rw [if_pos (SkillGraph.get_id hs)]
  rw [SkillGraph.prereqIds_of_get (by rw [hget, Option.map_some', hupd]),
    SkillGraph.prereqIds_of_get hs]

/-- C4 witness: in the sample graph, making b depend on a succeeds and adds
exactly that edge. -/
theorem claim_C4_witness :
    sampleGraph.add_prerequisite 2 1 = .ok sampleAdd21 ∧
    sampleAdd21.prereqIds 2 = sampleGraph.prereqIds 2 ++ [1] := by
  obtain ⟨g', h1, h2⟩ := (claim_C4_add_prerequisite sampleGraph 2 1).2 (by decide)
  have he : (Except.ok g' : Except SkillError SkillGraph) = .ok sampleAdd21 := by
    rw [← h1]
    rfl
  rw [Except.ok.inj he] at h1 h2
  exact ⟨h1, h2⟩

/-- C6: delete_prerequisite(skill_id, prerequisite_id) fails, with the
uniform assertion error, exactly when one of the two ids is not present or
the edge does not currently exist; otherwise it succeeds, removing exactly
that edge and leaving every other prerequisite list unchanged. -/
theorem claim_C6_delete_prerequisite (g : SkillGraph) (sid pid : Nat) :
    (g.delete_prerequisite sid pid = .error .assertionError ↔
      ¬ sid ∈ g.ids ∨ ¬ pid ∈ g.ids ∨ ¬ pid ∈ g.prereqIds sid) ∧
    (¬ (¬ sid ∈ g.ids ∨ ¬ pid ∈ g.ids ∨ ¬ pid ∈ g.prereqIds sid) →
      ∃ g', g.delete_prerequisite sid pid = .ok g' ∧
        (∀ x, x ∈ g'.prereqIds sid ↔ x ∈ g.prereqIds sid ∧ ¬ x = pid) ∧
        ∀ j, ¬ j = sid → g'.prereqIds j = g.prereqIds j) := by
  refine ⟨SkillGraph.delete_prerequisite_error_iff g sid pid, ?_⟩
  intro h
  push_neg at h
  obtain ⟨h1, h2, h3⟩ := h
  obtain ⟨s, hs⟩ := SkillGraph.exists_get_iff_mem_ids.2 h1
  obtain ⟨q, hq⟩ := SkillGraph.exists_get_iff_mem_ids.2 h2
  have hmem : pid ∈ s.prerequisite_ids := by
    rw [SkillGraph.prereqIds_of_get hs] at h3
    exact h3
  refine ⟨_, SkillGraph.delete_prerequisite_ok hs ⟨q, hq⟩ hmem, ?_, ?_⟩
  · intro x
    have hget := SkillGraph.get_map_dropEdge g sid pid sid g.nextId
    rw [hs] at hget
    have hupd : SkillGraph.dropEdgeFun sid pid s =
        { s with prerequisite_ids :=
            s.prerequisite_ids.filter fun p => decide (¬ p = pid) } := by
      unfold SkillGraph.dropEdgeFun
      rw [if_pos (SkillGraph.get_id hs)]
    rw [SkillGraph.prereqIds_of_get (by rw [hget, Option.map_some', hupd]),
      SkillGraph.prereqIds_of_get hs]
    simp [List.mem_filter]
  · intro j hj
    have hget := SkillGraph.get_map_dropEdge g sid pid j g.nextId
    cases hgj : g.get j with
    | none =>
        rw [hgj] at hget
        rw [SkillGraph.prereqIds_of_none hget, SkillGraph.prereqIds_of_none hgj]
    | some t =>
        rw [hgj] at hget
        have ht : SkillGraph.dropEdgeFun sid pid t = t := by
          unfold SkillGraph.dropEdgeFun
          rw [if_neg]
          rw [SkillGraph.get_id hgj]
          intro hc
          exact hj (Option.some_inj.1 hc)
        rw [SkillGraph.prereqIds_of_get (by rw [hget, Option.map_some', ht]),
          SkillGraph.prereqIds_of_get hgj]

/-- C6 witness: in the sample graph, deleting the edge from d to a succeeds,
removes exactly that edge, and leaves the prerequisites of e unchanged. -/
theorem claim_C6_witness :
    sampleGraph.delete_prerequisite 3 1 = .ok sampleDrop31 ∧
    (2 ∈ sampleDrop31.prereqIds 3 ↔ 2 ∈ sampleGraph.prereqIds 3 ∧ ¬ (2 : Nat) = 1) ∧
    sampleDrop31.prereqIds 5 = sampleGraph.prereqIds 5 := by
  obtain ⟨g', h1, h2, h3⟩ :=
    (claim_C6_delete_prerequisite sampleGraph 3 1).2 (by decide)
  have he : (Except.ok g' : Except SkillError SkillGraph) = .ok sampleDrop31 := by
    rw [← h1]
    rfl
  rw [Except.ok.inj he] at h1 h2 h3
  exact ⟨h1, h2 2, h3 5 (by decide)⟩

lemma SkillGraph.prerequisites_of_get {g : SkillGraph} {i : Nat} {s : Skill}
    (h : g.get i = some s) :
    g.prerequisites i = s.prerequisite_ids.filterMap g.get := by
  simp [SkillGraph.prerequisites, h]

/-- C3: after a successful add_prerequisite(B, A), A is among the
prerequisites of B and B among the successors of A — the two queries are
true inverses — and both remain so after the graph is reloaded from its
repository records. -/
theorem claim_C3_inverse_relation (g : SkillGraph) (sid pid : Nat)
    (g' : SkillGraph) (h : g.add_prerequisite sid pid = .ok g') :
    (∃ s, s ∈ g'.prerequisites sid ∧ s.id = some pid) ∧
    (∃ t, t ∈ g'.successors pid ∧ t.id = some sid) ∧
    (SkillGraph.load g'.skills).prerequisites sid = g'.prerequisites sid ∧
    (SkillGraph.load g'.skills).successors pid = g'.successors pid := by
  obtain ⟨s, hs, ⟨q, hq⟩, hsp, hdup, hg'⟩ := SkillGraph.add_prerequisite_ok_inv h
  subst hg'
  have hsid := SkillGraph.get_id hs
  have hqid := SkillGraph.get_id hq
  have hupds : SkillGraph.addEdgeFun sid pid s =
      { s with prerequisite_ids := s.prerequisite_ids ++ [pid] } := by
    unfold SkillGraph.addEdgeFun
    rw [if_pos hsid]
  have hgets : (SkillGraph.mk (g.skills.map (SkillGraph.addEdgeFun sid pid))
      g.nextId).get sid = some (SkillGraph.addEdgeFun sid pid s) := by
    rw [SkillGraph.get_map_addEdge, hs, Option.map_some']
  have hgetq : (SkillGraph.mk (g.skills.map (SkillGraph.addEdgeFun sid pid))
      g.nextId).get pid = some q := by
    rw [SkillGraph.get_map_addEdge, hq, Option.map_some']
    congr 1
    unfold SkillGraph.addEdgeFun
    rw [if_neg]
    rw [hqid]
    intro hc
    exact hsp (Option.some_inj.1 hc).symm
  refine ⟨⟨q, ?_, hqid⟩,
    ⟨SkillGraph.addEdgeFun sid pid s, ?_, by rw [hupds]; exact hsid⟩, rfl, rfl⟩
  · rw [SkillGraph.prerequisites_of_get hgets, hupds]
    refine List.mem_filterMap.2 ⟨pid, ?_, hgetq⟩
    exact List.mem_append_right _ (List.mem_singleton.2 rfl)
  · unfold SkillGraph.successors
    refine List.mem_filter.2 ⟨List.mem_map_of_mem _ (SkillGraph.get_mem hs), ?_⟩
    rw [hupds]
    simp

/-- C3 witness: making b depend on a in the sample graph, a is then a
prerequisite of b, b a successor of a, and reloading preserves both. -/
theorem claim_C3_witness :
    (∃ s, s ∈ sampleAdd21.prerequisites 2 ∧ s.id = some 1) ∧
    (∃ t, t ∈ sampleAdd21.successors 1 ∧ t.id = some 2) ∧
    (SkillGraph.load sampleAdd21.skills).prerequisites 2 =
      sampleAdd21.prerequisites 2 ∧
    (SkillGraph.load sampleAdd21.skills).successors 1 =
      sampleAdd21.successors 1 :=
  claim_C3_inverse_relation sampleGraph 2 1 sampleAdd21 rfl

/-- C5: delete(id) on a present id removes the skill and scrubs the id from
every remaining prerequisite list, and adding a fresh skill followed by
deleting it restores the original skill list. -/
theorem claim_C5_delete_roundtrip :
    (∀ (g : SkillGraph) (i : Nat) (s : Skill), g.get i = some s →
      ∃ g', g.delete i = .ok g' ∧
        (∀ t ∈ g'.skills, ¬ t.id = some i ∧ ¬ i ∈ t.prerequisite_ids) ∧
        (g.ids.Nodup → g'.skills.length + 1 = g.skills.length)) ∧
    (∀ (g : SkillGraph) (nm ds : String), SkillGraph.WF g →
      ∃ s' g1 g2, g.add (Skill.build nm ds) = .ok (s', g1) ∧
        g1.delete (s'.id.getD 0) = .ok g2 ∧ g2.skills = g.skills) := by
  constructor
  · intro g i s h
    refine ⟨⟨(g.skills.filter fun s => decide (¬ s.id = some i)).map
        (fun s => { s with prerequisite_ids :=
          s.prerequisite_ids.filter (fun p => decide (¬ p = i)) }), g.nextId⟩,
      ?_, ?_, ?_⟩
    · rw [SkillGraph.delete, h]
    · intro t ht
      simp only [List.mem_map, List.mem_filter] at ht
      obtain ⟨u, ⟨humem, hukeep⟩, hut⟩ := ht
      rw [decide_eq_true_eq] at hukeep
      constructor
      · rw [← hut]
        exact hukeep
      · rw [← hut]
        simp
    · intro hnd
      simp only [List.length_map]
      exact SkillGraph.length_filter_ne_of_nodup g.skills i hnd
        ⟨s, SkillGraph.get_mem h, SkillGraph.get_id h⟩
  · intro g nm ds hwf
    refine ⟨⟨some g.nextId, nm, ds, []⟩,
      ⟨g.skills ++ [⟨some g.nextId, nm, ds, []⟩], g.nextId + 1⟩, ?_⟩
    have hfresh : ∀ u ∈ g.skills, ¬ u.id = some g.nextId := by
      intro u hu hc
      have := hwf.1 u hu
      rw [hc] at this
      simp at this
    have hget1 : (SkillGraph.mk (g.skills ++ [⟨some g.nextId, nm, ds, []⟩])
        (g.nextId + 1)).get g.nextId = some ⟨some g.nextId, nm, ds, []⟩ := by
      unfold SkillGraph.get
      rw [List.find?_append]
      have h1 : (g.skills.find? fun s => s.id == some g.nextId) = none := by
        rw [List.find?_eq_none]
        intro u hu
        simpa using hfresh u hu
      rw [h1, List.find?_cons_of_pos _ (by simp)]
      rfl
    refine ⟨SkillGraph.mk (((g.skills ++ [Skill.mk (some g.nextId) nm ds []]).filter fun s =>
        decide (¬ s.id = some g.nextId)).map
          (fun s : Skill => { s with prerequisite_ids :=
            (s.prerequisite_ids.filter (fun p => decide (¬ p = g.nextId))) }))
      (g.nextId + 1), rfl, ?_, ?_⟩
    · show SkillGraph.delete _ ((some g.nextId).getD 0) = _
      rw [show ((some g.nextId).getD 0) = g.nextId from rfl]
      rw [SkillGraph.delete, hget1]
    · show ((g.skills ++ [Skill.mk (some g.nextId) nm ds []]).filter fun s =>
          decide (¬ s.id = some g.nextId)).map
            (fun s : Skill => { s with prerequisite_ids :=
              (s.prerequisite_ids.filter (fun p => decide (¬ p = g.nextId))) }) =
          g.skills
      rw [List.filter_append]
      have h2 : (g.skills.filter fun s => decide (¬ s.id = some g.nextId)) =
          g.skills := by
        rw [List.filter_eq_self]
        intro u hu
        simpa using hfresh u hu
      have h3 : (([⟨some g.nextId, nm, ds, []⟩] : List Skill).filter fun s =>
          decide (¬ s.id = some g.nextId)) = [] := by
        simp
      have h4 : ∀ u ∈ g.skills,
          ({ u with prerequisite_ids :=
              (u.prerequisite_ids.filter (fun p => decide (¬ p = g.nextId))) }) = u := by
        intro u hu
        refine SkillGraph.scrub_eq_self ?_
        intro hc
        have := hwf.2 u hu g.nextId hc
        omega
      rw [h2, h3, List.append_nil]
      calc g.skills.map (fun u => { u with prerequisite_ids :=
              (u.prerequisite_ids.filter (fun p => decide (¬ p = g.nextId))) })
          = g.skills.map id := List.map_congr_left h4
        _ = g.skills := List.map_id g.skills

/-- C5 witness: deleting skill a from the sample graph removes it and every
reference to it, and an add-then-delete of a fresh skill restores the sample
skill list of the graph. -/
theorem claim_C5_witness :
    (∃ g', sampleGraph.delete 1 = .ok g' ∧
      (∀ t ∈ g'.skills, ¬ t.id = some 1 ∧ ¬ 1 ∈ t.prerequisite_ids) ∧
      (sampleGraph.ids.Nodup → g'.skills.length + 1 = sampleGraph.skills.length)) ∧
    (∃ s' g1 g2, sampleGraph.add (Skill.build ("x") ("y")) = .ok (s', g1) ∧
      g1.delete (s'.id.getD 0) = .ok g2 ∧ g2.skills = sampleGraph.skills) :=
  ⟨claim_C5_delete_roundtrip.1 sampleGraph 1 (Skill.mk (some 1) ("a") ("") [])
      (by decide),
    claim_C5_delete_roundtrip.2 sampleGraph ("x") ("y") (by decide)⟩

/-- C7: a prerequisite-list update that violates a precondition (duplicate
entries or a self-loop) fails synchronously and leaves no half-applied mutation
visible: the graph the caller sees afterwards is exactly the original. -/
theorem claim_C7_all_or_nothing (g : SkillGraph) (i : Nat) (pids : List Nat) :
    ((g.update_prerequisites i pids).2 = .error .assertionError →
        (g.update_prerequisites i pids).1 = g) ∧
    (¬ pids.Nodup → g.update_prerequisites i pids = (g, .error .assertionError)) ∧
    (i ∈ pids → g.update_prerequisites i pids = (g, .error .assertionError)) := by
  unfold SkillGraph.update_prerequisites
  by_cases h1 : ¬ pids.Nodup
  · rw [if_pos h1]
    exact ⟨fun _ => rfl, fun _ => rfl, fun _ => rfl⟩
  · rw [if_neg h1]
    by_cases h2 : i ∈ pids
    · rw [if_pos h2]
      exact ⟨fun _ => rfl, fun hn => absurd hn h1, fun _ => rfl⟩
    · rw [if_neg h2]
      cases hset : g.set_prerequisites i pids with
      | ok g2 =>
          refine ⟨?_, fun hn => absurd hn h1, fun hm => absurd hm h2⟩
          intro hc
          exact Except.noConfusion hc
      | error e =>
          exact ⟨fun _ => rfl, fun hn => absurd hn h1, fun hm => absurd hm h2⟩

/-- C7 witness: updating skill a of the sample graph with a self-loop
prerequisite list is rejected and the visible graph is unchanged, and so is
an update with duplicate prerequisites. -/
theorem claim_C7_witness :
    sampleGraph.update_prerequisites 1 [1] = (sampleGraph, .error .assertionError) ∧
    sampleGraph.update_prerequisites 2 [1, 1] = (sampleGraph, .error .assertionError) := by
  exact ⟨(claim_C7_all_or_nothing sampleGraph 1 [1]).2.2 (by decide),
    (claim_C7_all_or_nothing sampleGraph 2 [1, 1]).2.1 (by decide)⟩

/-- The successors graph has referential integrity by construction: every
edge target is a stored skill id. -/
lemma SkillGraph.successorsGraph_closed (g : SkillGraph) :
    DirGraph.Closed g.successorsGraph := by
  intro a _ b hb
  obtain ⟨s, hs, hsid⟩ := List.mem_filterMap.1 hb
  exact List.mem_filterMap.2 ⟨s, (List.mem_filter.1 hs).1, hsid⟩

/-- C1: simple_cycles returns exactly the simple cycles of the metrics
graph, canonically rooted at the minimal vertex; an acyclic graph yields the
empty list; without self-loops every reported cycle has at least two
distinct vertices; the samples report no cycle, the disjoint 2-cycle alone,
and the two disjoint 2-cycles independently. -/
theorem claim_C1_simple_cycles :
    (∀ t : SkillMapMetrics, DirGraph.Closed t.nxgraph →
      (∀ c, c ∈ t.simple_cycles ↔
          DirGraph.IsSimpleCycle t.nxgraph c ∧ DirGraph.Canonical c) ∧
      (DirGraph.Acyclic t.nxgraph → t.simple_cycles = []) ∧
      (DirGraph.NoSelfLoop t.nxgraph →
        ∀ c ∈ t.simple_cycles, 2 ≤ c.length ∧ c.Nodup)) ∧
    (SkillMapMetrics.ofMap ⟨sampleGraph, []⟩).simple_cycles = [] ∧
    (SkillMapMetrics.ofMap ⟨sampleDisconnected, []⟩).simple_cycles = [[7, 8]] ∧
    (SkillMapMetrics.ofMap ⟨sampleTwoCycles, []⟩).simple_cycles =
      [[1, 3], [7, 8]] := by
  refine ⟨?_, by decide, by decide, by decide⟩
  intro t hC
  refine ⟨fun c => DirGraph.mem_simpleCycles hC c,
    DirGraph.simpleCycles_eq_nil_of_acyclic hC, ?_⟩
  intro hS c hc
  have h := DirGraph.simpleCycles_sound hC hc
  exact ⟨DirGraph.two_le_length_of_cycle hS h.1, h.1.2.2.1⟩

/-- C1 witness: the acyclic sample yields no cycle, via its acyclicity
certificate, and the reported 2-cycle of the doubly cyclic sample has two
distinct vertices. -/
theorem claim_C1_witness :
    (SkillMapMetrics.ofMap ⟨sampleGraph, []⟩).simple_cycles = [] ∧
    2 ≤ ([1, 3] : List Nat).length ∧ ([1, 3] : List Nat).Nodup := by
  have h := claim_C1_simple_cycles
  refine ⟨(h.1 (SkillMapMetrics.ofMap ⟨sampleGraph, []⟩) (by decide)).2.1
      (DirGraph.acyclic_of_acyclicB (by decide)), ?_⟩
  exact (h.1 (SkillMapMetrics.ofMap ⟨sampleTwoCycles, []⟩) (by decide)).2.2
    (by decide) [1, 3] (by decide)

/-- C2: on an acyclic graph, co-set k of _topo_sort holds exactly the skills
whose longest prerequisite chain has length k, and the sample graph yields
exactly the three co-sets of ids of a, b, c, then d, e, then f. -/
theorem claim_C2_topo_cosets :
    (∀ (m : SkillMap), DirGraph.Closed m.graph.prereqGraph →
      m.graph.ids.Nodup → DirGraph.Acyclic m.graph.prereqGraph →
      ∀ k v, v ∈ m.topo_sort.getD k [] ↔
        v ∈ m.graph.ids ∧ DirGraph.ChainGe m.graph.prereqGraph v k ∧
          ¬ DirGraph.ChainGe m.graph.prereqGraph v (k + 1)) ∧
    (SkillMap.mk sampleGraph []).topo_sort = [[1, 2, 4], [3, 5], [6]] := by
  refine ⟨?_, by decide⟩
  intro m hC hN _hA k v
  exact DirGraph.mem_cosets_getD m.graph.prereqGraph hC hN k v

/-- C2 witness: in the sample graph, skill d (id 3) lies in co-set 1 exactly
because its longest prerequisite chain has length 1. -/
theorem claim_C2_witness :
    3 ∈ (SkillMap.mk sampleGraph []).topo_sort.getD 1 [] ↔
      3 ∈ sampleGraph.ids ∧
        DirGraph.ChainGe sampleGraph.prereqGraph 3 1 ∧
        ¬ DirGraph.ChainGe sampleGraph.prereqGraph 3 2 :=
  claim_C2_topo_cosets.1 ⟨sampleGraph, []⟩ (by decide) (by decide)
    (DirGraph.acyclic_of_acyclicB (by decide)) 1 3

/-- C8: sorting skills by prerequisites lists every stored skill exactly
once, every skill strictly after each of its direct or transitive
prerequisites, with the stable co-set order as the deterministic tie-break;
the sample graph produces names a, b, c, d, e, f in that order. -/
theorem claim_C8_sort_by_prerequisites :
    (∀ (m : SkillMap), DirGraph.Closed m.graph.prereqGraph →
      m.graph.ids.Nodup → (∀ s ∈ m.graph.skills, s.id.isSome = true) →
      DirGraph.Acyclic m.graph.prereqGraph →
      (∀ s, s ∈ m.skillsByPrerequisites ↔ s ∈ m.graph.skills) ∧
      m.skillsByPrerequisites.Nodup ∧
      (∀ i j, ∀ hi : i < m.skillsByPrerequisites.length,
        ∀ hj : j < m.skillsByPrerequisites.length,
        DirGraph.Reaches m.graph.prereqGraph
          ((m.skillsByPrerequisites[i]).id.getD 0)
          ((m.skillsByPrerequisites[j]).id.getD 0) → j < i)) ∧
    (SkillMap.mk sampleGraph []).skillsByPrerequisites.map Skill.name =
      [("a"), ("b"), ("c"), ("d"), ("e"), ("f")] := by
  refine ⟨?_, by decide⟩
  intro m hC hN hAll hA
  have hFnodes : ∀ v ∈ m.topo_sort.flatten, v ∈ m.graph.ids := fun v hv =>
    DirGraph.flatten_mem_nodes m.graph.prereqGraph hv
  have hFsome : ∀ v ∈ m.topo_sort.flatten, (m.graph.get v).isSome = true := by
    intro v hv
    obtain ⟨s, hs⟩ := SkillGraph.exists_get_iff_mem_ids.2 (hFnodes v hv)
    rw [hs]
    rfl
  have hFnodup : m.topo_sort.flatten.Nodup :=
    DirGraph.cosets_flatten_nodup m.graph.prereqGraph hN
  have hLmap : m.skillsByPrerequisites =
      m.topo_sort.flatten.map fun v =>
        (m.graph.get v).getD (Skill.build ("") ("")) :=
    filterMap_eq_map_of_isSome m.graph.get (Skill.build ("") (""))
      m.topo_sort.flatten hFsome
  have hid : ∀ v ∈ m.topo_sort.flatten,
      ((m.graph.get v).getD (Skill.build ("") (""))).id = some v := by
    intro v hv
    obtain ⟨s, hs⟩ := SkillGraph.exists_get_iff_mem_ids.2 (hFnodes v hv)
    rw [hs]
    exact SkillGraph.get_id hs
  refine ⟨?_, ?_, ?_⟩
  · intro s
    unfold SkillMap.skillsByPrerequisites
    rw [List.mem_filterMap]
    constructor
    · rintro ⟨v, _, hgv⟩
      exact SkillGraph.get_mem hgv
    · intro hs
      obtain ⟨i, hi⟩ := Option.isSome_iff_exists.1 (hAll s hs)
      have hmemids : i ∈ m.graph.ids := SkillGraph.mem_ids.2 ⟨s, hs, hi⟩
      exact ⟨i, DirGraph.mem_join_cosets m.graph.prereqGraph hC hN hA i hmemids,
        SkillGraph.get_of_mem hN hs hi⟩
  · rw [hLmap]
    refine List.Nodup.map_on ?_ hFnodup
    intro x hx y hy hxy
    have h1 := hid x hx
    have h2 := hid y hy
    rw [hxy] at h1
    exact Option.some_inj.1 (h1.symm.trans h2)
  · intro i j hi hj hr
    have hiF : i < m.topo_sort.flatten.length := by
      rw [hLmap, List.length_map] at hi
      exact hi
    have hjF : j < m.topo_sort.flatten.length := by
      rw [hLmap, List.length_map] at hj
      exact hj
    have hgi : (m.skillsByPrerequisites[i]).id.getD 0 =
        m.topo_sort.flatten[i] := by
      have := List.getElem_of_eq hLmap hi
      rw [this, List.getElem_map]
      rw [hid _ (List.getElem_mem hiF)]
      rfl
    have hgj : (m.skillsByPrerequisites[j]).id.getD 0 =
        m.topo_sort.flatten[j] := by
      have := List.getElem_of_eq hLmap hj
      rw [this, List.getElem_map]
      rw [hid _ (List.getElem_mem hjF)]
      rfl
    rw [hgi, hgj] at hr
    have hlt : m.topo_sort.flatten.indexOf (m.topo_sort.flatten[j]) <
        m.topo_sort.flatten.indexOf (m.topo_sort.flatten[i]) :=
      DirGraph.flatten_cosets_ordering m.graph.prereqGraph hC hN
        (List.getElem_mem hiF) (List.getElem_mem hjF) hr
    rw [nodup_indexOf_getElem hFnodup i hiF,
      nodup_indexOf_getElem hFnodup j hjF] at hlt
    exact hlt

/-- C8 witness: for the sample map, skill a is listed, the listing has no
duplicates, and skill d (position 3), which transitively depends on skill a
(position 0), indeed comes after it. -/
theorem claim_C8_witness :
    (Skill.mk (some 1) ("a") ("") [] ∈
        (SkillMap.mk sampleGraph []).skillsByPrerequisites ↔
      Skill.mk (some 1) ("a") ("") [] ∈ sampleGraph.skills) ∧
    (SkillMap.mk sampleGraph []).skillsByPrerequisites.Nodup ∧ 0 < 3 := by
  have h := claim_C8_sort_by_prerequisites.1 ⟨sampleGraph, []⟩ (by decide)
    (by decide) (by decide) (DirGraph.acyclic_of_acyclicB (by decide))
  refine ⟨h.1 (Skill.mk (some 1) ("a") ("") []), h.2.1, ?_⟩
  exact h.2.2 3 0 (by decide) (by decide)
    ⟨[1], by decide, List.Chain.cons (by decide) List.Chain.nil, by decide⟩

/-- The skill map used by the lesson tests: the sample graph joined with
three lessons of one unit; lesson 1 teaches skill 1, lesson 2 teaches
nothing, lesson 3 teaches skills 1 and 2. -/
def sampleMap : SkillMap :=
  ⟨sampleGraph,
    [Lesson.mk 1 1 1 [1], Lesson.mk 2 1 2 [], Lesson.mk 3 1 3 [1, 2]]⟩

/-- C9: get_lessons_for_skill returns exactly the lessons whose skill list
holds the id of the skill, in ascending unit-then-lesson position order, and the
empty list (never a missing value) when no lesson teaches the skill. -/
theorem claim_C9_lessons_for_skill (m : SkillMap) (s : Skill) (i : Nat)
    (hid : s.id = some i) :
    (∀ l, l ∈ m.get_lessons_for_skill s ↔ l ∈ m.lessons ∧ i ∈ l.skill_ids) ∧
    List.Pairwise lessonLE (m.get_lessons_for_skill s) ∧
    ((∀ l ∈ m.lessons, ¬ i ∈ l.skill_ids) → m.get_lessons_for_skill s = []) := by
  unfold SkillMap.get_lessons_for_skill
  rw [hid]
  refine ⟨?_, ?_, ?_⟩
  · intro l
    rw [List.mem_mergeSort, List.mem_filter]
    simp
  · have hp := List.sorted_mergeSort
      (fun a b c (h1 : decide (lessonLE a b) = true)
          (h2 : decide (lessonLE b c) = true) => by
        rw [decide_eq_true_eq] at h1 h2
        exact decide_eq_true (lessonLE_trans a b c h1 h2))
      (fun a b => by
        rcases lessonLE_total a b with h | h
        · simp [decide_eq_true h]
        · simp [decide_eq_true h])
      (m.lessons.filter fun l => decide (i ∈ l.skill_ids))
    exact hp.imp fun h => of_decide_eq_true h
  · intro hnone
    have hfil : (m.lessons.filter fun l => decide (i ∈ l.skill_ids)) = [] := by
      rw [List.filter_eq_nil_iff]
      intro l hl
      simpa using hnone l hl
    rw [hfil, List.mergeSort_nil]

/-- C9 witness: for skill a of the sample map, lesson 3 is reported exactly
because it teaches it, the report is position-ordered, and skill f (taught
nowhere) gets the empty list. -/
theorem claim_C9_witness :
    (Lesson.mk 3 1 3 [1, 2] ∈
        sampleMap.get_lessons_for_skill (Skill.mk (some 1) ("a") ("") []) ↔
      Lesson.mk 3 1 3 [1, 2] ∈ sampleMap.lessons ∧
        1 ∈ (Lesson.mk 3 1 3 [1, 2]).skill_ids) ∧
    List.Pairwise lessonLE
      (sampleMap.get_lessons_for_skill (Skill.mk (some 1) ("a") ("") [])) ∧
    sampleMap.get_lessons_for_skill (Skill.mk (some 6) ("f") ("") [5]) = [] := by
  have h1 := claim_C9_lessons_for_skill sampleMap
    (Skill.mk (some 1) ("a") ("") []) 1 rfl
  have h6 := claim_C9_lessons_for_skill sampleMap
    (Skill.mk (some 6) ("f") ("") [5]) 6 rfl
  exact ⟨h1.1 (Lesson.mk 3 1 3 [1, 2]), h1.2.1, h6.2.2 (by decide)⟩

/-- C10: every precondition-violating mutation, across all mutation
operations, fails with the one uniform error kind (the assertion error):
re-adding a present skill, add_prerequisite with a missing id, with a
self-loop, or with a duplicate edge, and delete_prerequisite with a missing
id or a missing edge. -/
theorem claim_C10_assertion_error :
    (∀ (g : SkillGraph) (i : Nat) (s : Skill), g.get i = some s →
        g.add s = .error .assertionError) ∧
    (∀ (g : SkillGraph) (sid pid : Nat), ¬ sid ∈ g.ids ∨ ¬ pid ∈ g.ids →
        g.add_prerequisite sid pid = .error .assertionError) ∧
    (∀ (g : SkillGraph) (sid : Nat),
        g.add_prerequisite sid sid = .error .assertionError) ∧
    (∀ (g : SkillGraph) (sid pid : Nat), pid ∈ g.prereqIds sid →
        g.add_prerequisite sid pid = .error .assertionError) ∧
    (∀ (g : SkillGraph) (sid pid : Nat),
        ¬ sid ∈ g.ids ∨ ¬ pid ∈ g.ids ∨ ¬ pid ∈ g.prereqIds sid →
        g.delete_prerequisite sid pid = .error .assertionError) := by
  refine ⟨?_, ?_, ?_, ?_, ?_⟩
  · intro g i s h
    have hid := SkillGraph.get_id h
    rw [SkillGraph.add, hid]
  · intro g sid pid h
    refine (SkillGraph.add_prerequisite_error_iff g sid pid).2 ?_
    rcases h with h | h
    · exact Or.inl h
    · exact Or.inr (Or.inl h)
  · intro g sid
    exact (SkillGraph.add_prerequisite_error_iff g sid sid).2
      (Or.inr (Or.inr (Or.inl rfl)))
  · intro g sid pid h
    exact (SkillGraph.add_prerequisite_error_iff g sid pid).2
      (Or.inr (Or.inr (Or.inr h)))
  · intro g sid pid h
    exact (SkillGraph.delete_prerequisite_error_iff g sid pid).2 h

/-- C10 witness: each rejected mutation on the sample graph yields the
assertion error. -/
theorem claim_C10_witness :
    sampleGraph.add (Skill.mk (some 1) ("a") ("") []) = .error .assertionError ∧
    sampleGraph.add_prerequisite 99 1 = .error .assertionError ∧
    sampleGraph.add_prerequisite 1 1 = .error .assertionError ∧
    sampleGraph.add_prerequisite 3 1 = .error .assertionError ∧
    sampleGraph.delete_prerequisite 1 2 = .error .assertionError := by
  have h := claim_C10_assertion_error
  exact ⟨h.1 sampleGraph 1 (Skill.mk (some 1) ("a") ("") []) (by decide),
    h.2.1 sampleGraph 99 1 (by decide),
    h.2.2.1 sampleGraph 1,
    h.2.2.2.1 sampleGraph 3 1 (by decide),
    h.2.2.2.2 sampleGraph 1 2 (by decide)⟩
